import Mathlib

/-!
Verification of the kedash deep value transformation / deep clone engine
(`src/object.ts`): the value-coercion function `transformObjectValues` and
the structural cloner `deepClone`, embedded shallowly in Lean.

Part 1 models the coercion engine over a tree of JavaScript values; part 2
models the cloner over an explicit heap with reference identity so that
cycles, sharing and fresh allocation are expressible.
-/

/- ===================== Part 1: value coercion engine ===================== -/

/-- A JavaScript number: a finite value (modelled exactly as a rational,
which is faithful for the decimal strings the engine parses), or one of
the non-finite sentinels `NaN`, `Infinity`, `-Infinity`. -/
inductive JNum where
  | finite (q : Rat)
  | nan
  | posInf
  | negInf
deriving DecidableEq

/-- A JavaScript value as seen by `transformObjectValues`: primitives,
`Date` objects (carried by their broken-down UTC components, which uniquely
identify a valid date instant), arrays, and plain string-keyed objects. -/
inductive JVal where
  | vNull
  | vUndefined
  | vBool (b : Bool)
  | vNum (n : JNum)
  | vStr (s : String)
  | vDate (y m d hh mi ss ms : Nat)
  | vArr (elems : List JVal)
  | vObj (entries : List (String × JVal))

mutual

/-- Boolean equality on `JVal` (JavaScript strict equality is modelled as
structural equality; see the note on the transformer check below). -/
def jvalBEq : JVal → JVal → Bool
  | JVal.vNull, JVal.vNull => true
  | JVal.vUndefined, JVal.vUndefined => true
  | JVal.vBool b1, JVal.vBool b2 => decide (b1 = b2)
  | JVal.vNum n1, JVal.vNum n2 => decide (n1 = n2)
  | JVal.vStr s1, JVal.vStr s2 => decide (s1 = s2)
  | JVal.vDate y1 m1 d1 h1 i1 s1 x1, JVal.vDate y2 m2 d2 h2 i2 s2 x2 =>
    decide (y1 = y2) && decide (m1 = m2) && decide (d1 = d2) &&
      decide (h1 = h2) && decide (i1 = i2) && decide (s1 = s2) && decide (x1 = x2)
  | JVal.vArr xs, JVal.vArr ys => jlistBEq xs ys
  | JVal.vObj es, JVal.vObj fs => jentriesBEq es fs
  | _, _ => false

def jlistBEq : List JVal → List JVal → Bool
  | [], [] => true
  | x :: xs, y :: ys => jvalBEq x y && jlistBEq xs ys
  | _, _ => false

def jentriesBEq : List (String × JVal) → List (String × JVal) → Bool
  | [], [] => true
  | (k1, v1) :: es, (k2, v2) :: fs =>
    decide (k1 = k2) && jvalBEq v1 v2 && jentriesBEq es fs
  | _, _ => false

end

theorem jvalBEq_sound : ∀ n : Nat,
    (∀ a b : JVal, sizeOf a ≤ n → (jvalBEq a b = true ↔ a = b)) ∧
    (∀ xs ys : List JVal, sizeOf xs ≤ n → (jlistBEq xs ys = true ↔ xs = ys)) ∧
    (∀ es fs : List (String × JVal), sizeOf es ≤ n →
      (jentriesBEq es fs = true ↔ es = fs)) := by
  intro n
  induction n using Nat.strong_induction_on with
  | _ n ih =>
    refine ⟨?_, ?_, ?_⟩
    · intro a b hn
      cases a <;> cases b <;>
        simp only [jvalBEq, decide_eq_true_eq, Bool.and_eq_true] <;>
        try simp_all
      case vDate.vDate => tauto
      case vArr.vArr xs ys =>
        have hx : sizeOf xs < n := by
          have h2 := hn; simp only [JVal.vArr.sizeOf_spec] at h2; omega
        have hi := (ih (sizeOf xs) hx).2.1 xs ys le_rfl
        simp [hi]
      case vObj.vObj es fs =>
        have hx : sizeOf es < n := by
          have h2 := hn; simp only [JVal.vObj.sizeOf_spec] at h2; omega
        have hi := (ih (sizeOf es) hx).2.2 es fs le_rfl
        simp [hi]
    · intro xs ys hn
      cases xs <;> cases ys <;> simp only [jlistBEq, Bool.and_eq_true] <;> try simp_all
      rename_i x xs y ys
      have h1 : sizeOf x < n := by
        have := hn; simp only [List.cons.sizeOf_spec] at this; omega
      have h2 : sizeOf xs < n := by
        have := hn; simp only [List.cons.sizeOf_spec] at this; omega
      have e1 := (ih (sizeOf x) h1).1 x y le_rfl
      have e2 := (ih (sizeOf xs) h2).2.1 xs ys le_rfl
      simp [e1, e2]
    · intro es fs hn
      cases es <;> cases fs <;> simp only [jentriesBEq, Bool.and_eq_true] <;> try simp_all
      rename_i e es f fs
      obtain ⟨k1, v1⟩ := e
      obtain ⟨k2, v2⟩ := f
      have h1 : sizeOf v1 < n := by
        have := hn
        simp only [List.cons.sizeOf_spec, Prod.mk.sizeOf_spec] at this; omega
      have h2 : sizeOf es < n := by
        have := hn; simp only [List.cons.sizeOf_spec] at this; omega
      have e1 := (ih (sizeOf v1) h1).1 v1 v2 le_rfl
      have e2 := (ih (sizeOf es) h2).2.2 es fs le_rfl
      simp only [jentriesBEq, Bool.and_eq_true, decide_eq_true_eq, e1, e2]
      constructor
      · rintro ⟨⟨hk, hv⟩, hes⟩; simp [hk, hv, hes]
      · rintro ⟨h1, h2⟩; simp_all

instance : DecidableEq JVal := fun a b =>
  if h : jvalBEq a b = true then
    isTrue (((jvalBEq_sound (sizeOf a)).1 a b le_rfl).1 h)
  else
    isFalse (fun he => h (((jvalBEq_sound (sizeOf a)).1 a b le_rfl).2 he))

/-- `typeof v === 'object' && v !== null` (Dates, arrays and objects). -/
def JVal.isObjectType : JVal → Bool
  | JVal.vDate _ _ _ _ _ _ _ => true
  | JVal.vArr _ => true
  | JVal.vObj _ => true
  | _ => false

/-- The `TransformOptions` configuration record (`src/types.ts`), with the
defaults the destructuring in `transformObjectValues` supplies. -/
structure TransformOptions where
  deep : Bool := false
  transformer : Option (JVal → String → JVal) := none
  parseNumbers : Bool := false
  parseDates : Bool := false
  keys : Option (List String) := none
  emptyStringToNull : Bool := false
  parseSpecialNumbers : Bool := false

/-- The `simpleMap` literal table built in `transformObjectValues`, as a
lookup: `true/false/null/undefined` always, and the special numeric
sentinels when `parseSpecialNumbers` is set. -/
def simpleMapLookup (parseSpecialNumbers : Bool) (s : String) : Option JVal :=
  if s = "true" then some (JVal.vBool true)
  else if s = "false" then some (JVal.vBool false)
  else if s = "null" then some JVal.vNull
  else if s = "undefined" then some JVal.vUndefined
  else if parseSpecialNumbers then
    if s = "NaN" then some (JVal.vNum JNum.nan)
    else if s = "Infinity" then some (JVal.vNum JNum.posInf)
    else if s = "-Infinity" then some (JVal.vNum JNum.negInf)
    else none
  else none

/-- `NUMERIC_PATTERN`: the regex `-?\d+(\.\d+)?` anchored at both ends. -/
def matchesNumeric (s : String) : Bool :=
  let cs := if s.toList.head? = some '-' then s.toList.tail else s.toList
  let intPart := cs.takeWhile Char.isDigit
  match cs.dropWhile Char.isDigit with
  | [] => !intPart.isEmpty
  | '.' :: frac => !intPart.isEmpty && !frac.isEmpty && frac.all Char.isDigit
  | _ => false

/-- Value of a list of decimal digit characters. -/
def digitsToNat (cs : List Char) : Nat :=
  cs.foldl (fun acc c => acc * 10 + (c.toNat - '0'.toNat)) 0

/-- Models the JavaScript `Number()` conversion on strings that match
`NUMERIC_PATTERN`: the exact decimal value (other strings are irrelevant
here because the engine tests the pattern first; they give `NaN`). -/
def jsNumber (s : String) : JNum :=
  if matchesNumeric s then
    let neg := s.toList.head? = some '-'
    let cs := if neg then s.toList.tail else s.toList
    let intPart := cs.takeWhile Char.isDigit
    let rest := cs.dropWhile Char.isDigit
    let fracPart := rest.tail.takeWhile Char.isDigit
    let mag : Rat :=
      (digitsToNat intPart : Rat) +
        (digitsToNat fracPart : Rat) / ((10 : Rat) ^ fracPart.length)
    JNum.finite (if neg then -mag else mag)
  else JNum.nan

/-- All characters are decimal digits. -/
def isDigits (cs : List Char) : Bool := cs.all Char.isDigit

/-- The optional time part of `ISO_DATE_PATTERN`:
`(T\d{2}:\d{2}:\d{2}(\.\d{3})?Z?)?`. -/
def matchesTimeTail : List Char → Bool
  | [] => true
  | 'T' :: h1 :: h2 :: ':' :: m1 :: m2 :: ':' :: s1 :: s2 :: rest2 =>
    isDigits [h1, h2, m1, m2, s1, s2] &&
      (match rest2 with
       | [] => true
       | ['Z'] => true
       | '.' :: f1 :: f2 :: f3 :: rest3 =>
         isDigits [f1, f2, f3] && (rest3 = [] || rest3 = ['Z'])
       | _ => false)
  | _ => false

/-- `ISO_DATE_PATTERN`: the regex
`^\d{4}-\d{2}-\d{2}(T\d{2}:\d{2}:\d{2}(\.\d{3})?Z?)?$`. -/
def matchesISO (s : String) : Bool :=
  match s.toList with
  | y1 :: y2 :: y3 :: y4 :: '-' :: m1 :: m2 :: '-' :: d1 :: d2 :: rest =>
    isDigits [y1, y2, y3, y4, m1, m2, d1, d2] && matchesTimeTail rest
  | _ => false

def isLeapYear (y : Nat) : Bool :=
  (y % 4 = 0 && y % 100 ≠ 0) || y % 400 = 0

def daysInMonth (y m : Nat) : Nat :=
  if m = 2 then (if isLeapYear y then 29 else 28)
  else if m = 4 ∨ m = 6 ∨ m = 9 ∨ m = 11 then 30
  else 31

/-- Range validity of broken-down date-time components, following the
ECMAScript `Date` constructor on ISO 8601 strings: month 1..12, day within
the month, time below 24:00:00 (or exactly 24:00:00.000). -/
def validComponents (y m d hh mi ss ms : Nat) : Bool :=
  1 ≤ m && m ≤ 12 && 1 ≤ d && d ≤ daysInMonth y m &&
    ((hh ≤ 23 && mi ≤ 59 && ss ≤ 59) || (hh = 24 && mi = 0 && ss = 0 && ms = 0))

/-- Numeric value of two digit characters. -/
def twoDigits (a b : Char) : Nat := digitsToNat [a, b]

/-- Models `new Date(s)` followed by the `Number.isNaN(date.getTime())`
check, for strings that match `ISO_DATE_PATTERN`: `some` of the date value
when the components are in range, `none` for an invalid date instant. -/
def jsDateParse (s : String) : Option JVal :=
  match s.toList with
  | [y1, y2, y3, y4, '-', m1, m2, '-', d1, d2] =>
    let y := digitsToNat [y1, y2, y3, y4]
    let m := twoDigits m1 m2
    let d := twoDigits d1 d2
    if validComponents y m d 0 0 0 0 then some (JVal.vDate y m d 0 0 0 0) else none
  | y1 :: y2 :: y3 :: y4 :: '-' :: m1 :: m2 :: '-' :: d1 :: d2 :: 'T' ::
      h1 :: h2 :: ':' :: mi1 :: mi2 :: ':' :: s1 :: s2 :: rest =>
    let y := digitsToNat [y1, y2, y3, y4]
    let m := twoDigits m1 m2
    let d := twoDigits d1 d2
    let hh := twoDigits h1 h2
    let mi := twoDigits mi1 mi2
    let ss := twoDigits s1 s2
    let ms : Nat :=
      match rest with
      | '.' :: f1 :: f2 :: f3 :: _ => digitsToNat [f1, f2, f3]
      | _ => 0
    if validComponents y m d hh mi ss ms then
      some (JVal.vDate y m d hh mi ss ms)
    else none
  | _ => none

/-- The key allow-list test `keys && !keys.includes(key)` (negated): a key
is visited when no list is configured or the key is in the list. -/
def keyAllowed (keys : Option (List String)) (k : String) : Bool :=
  match keys with
  | none => true
  | some ks => ks.contains k

/-- The built-in string rule chain of `transformValue` (src/object.ts:179..205):
empty string, literal table, ISO date (with the invalid-instant guard),
numeric string (with the `Number.isNaN` guard), else unchanged. -/
def stringRules (opts : TransformOptions) (s : String) : JVal :=
  if opts.emptyStringToNull && s = "" then JVal.vNull
  else
    match simpleMapLookup opts.parseSpecialNumbers s with
    | some lit => lit
    | none =>
      let numStep : JVal :=
        if opts.parseNumbers && matchesNumeric s then
          let num := jsNumber s
          if num ≠ JNum.nan then JVal.vNum num else JVal.vStr s
        else JVal.vStr s
      if opts.parseDates && matchesISO s then
        match jsDateParse s with
        | some dateVal => dateVal
        | none => numStep
      else numStep

mutual

/-- `transformObjectValues(data, options)` (src/object.ts:111): returns
null/undefined and non-object/non-array data unchanged; maps
`transformObjectValues` over arrays when `deep` is set (unchanged
otherwise); applies the per-entry rule to each own enumerable entry of an
object, copying entries with disallowed keys through unchanged. -/
def transformObjectValues (opts : TransformOptions) (data : JVal) : JVal :=
  match data with
  | JVal.vNull => JVal.vNull
  | JVal.vUndefined => JVal.vUndefined
  | JVal.vBool b => JVal.vBool b
  | JVal.vNum n => JVal.vNum n
  | JVal.vStr s => JVal.vStr s
  | JVal.vDate y m d hh mi ss ms => JVal.vDate y m d hh mi ss ms
  | JVal.vArr elems =>
    if opts.deep then JVal.vArr (transformList opts elems) else JVal.vArr elems
  | JVal.vObj entries => JVal.vObj (transformEntries opts entries)

/-- `data.map((item) => transformObjectValues(item, options))`. -/
def transformList (opts : TransformOptions) : List JVal → List JVal
  | [] => []
  | x :: xs => transformObjectValues opts x :: transformList opts xs

/-- The `for (const [key, value] of Object.entries(data))` loop: keys not
in the allow-list are copied through unchanged, others go through
`transformValue`. -/
def transformEntries (opts : TransformOptions) :
    List (String × JVal) → List (String × JVal)
  | [] => []
  | (k, v) :: es =>
    (k, if keyAllowed opts.keys k then transformValue opts k v else v) ::
      transformEntries opts es

/-- `transformValue(val, key)` (src/object.ts:171): the custom transformer
is consulted first when present; a result different from the input
(JavaScript `!==`, modelled as structural inequality — exact for the
primitive values the engine targets) is returned verbatim, otherwise the
built-in rules run: string rules for strings, recursion into
objects/arrays in deep mode (the recursive `transformObjectValues` call of
src/object.ts:209 is unfolded one step here so that the recursion is
structural; `transformValue_eq_code` below recovers the literal shape). -/
def transformValue (opts : TransformOptions) (key : String) (val : JVal) : JVal :=
  let rules : JVal :=
    match val with
    | JVal.vStr s => stringRules opts s
    | JVal.vArr xs =>
      if opts.deep then JVal.vArr (transformList opts xs) else JVal.vArr xs
    | JVal.vObj es =>
      if opts.deep then JVal.vObj (transformEntries opts es) else JVal.vObj es
    | v => v
  match opts.transformer with
  | some t =>
    let transformed := t val key
    if transformed ≠ val then transformed else rules
  | none => rules

end

/-- The code of `transformValue` after the transformer block, written
exactly as in the source: string rules, then
`if (deep && val !== null && typeof val === 'object') return transformObjectValues(val, options)`,
else the value unchanged. -/
def applyRules (opts : TransformOptions) (key : String) (val : JVal) : JVal :=
  match val with
  | JVal.vStr s => stringRules opts s
  | v =>
    if opts.deep && v.isObjectType then transformObjectValues opts v else v

/-- `transformValue` equals the literal source shape: transformer first,
short-circuiting on a different result, then the built-in rules. -/
theorem transformValue_eq_code (opts : TransformOptions) (key : String) (val : JVal) :
    transformValue opts key val =
      match opts.transformer with
      | some t =>
        if t val key ≠ val then t val key else applyRules opts key val
      | none => applyRules opts key val := by
  have hrules :
      (match val with
        | JVal.vStr s => stringRules opts s
        | JVal.vArr xs =>
          if opts.deep then JVal.vArr (transformList opts xs) else JVal.vArr xs
        | JVal.vObj es =>
          if opts.deep then JVal.vObj (transformEntries opts es) else JVal.vObj es
        | v => v) = applyRules opts key val := by
    cases val <;> simp [applyRules, JVal.isObjectType, transformObjectValues] <;>
      (rename_i x; by_cases hd : opts.deep <;> simp [hd, transformObjectValues])
  cases h : opts.transformer <;>
    simp only [transformValue.eq_def, h, hrules] <;> simp

/-- `isObject` (src/typed.ts): true exactly for plain objects. -/
def JVal.isObject : JVal → Bool
  | JVal.vObj _ => true
  | _ => false

/-- `isArray` (src/typed.ts): true exactly for arrays. -/
def JVal.isArray : JVal → Bool
  | JVal.vArr _ => true
  | _ => false

/-- `transformList` is exactly `List.map` of `transformObjectValues`. -/
theorem transformList_eq_map (opts : TransformOptions) (xs : List JVal) :
    transformList opts xs = xs.map (transformObjectValues opts) := by
  induction xs with
  | nil => rfl
  | cons x xs ih => simp [transformList, ih]

/-- The literal table never matches the empty string. -/
theorem simpleMapLookup_empty (psn : Bool) : simpleMapLookup psn "" = none := by
  cases psn <;> rfl

/- ============================ Claim theorems ============================ -/

/-- C3, counterexample: the claim asserts that a top-level literal-token
string is coerced and that `transformObjectValues({arr:["true"]}, {deep:true})`
yields `{arr:[true]}`. The code does neither: non-object, non-array input
is returned unchanged with no leaf rule applied (src/object.ts:131), so a
string element of an array survives the deep recursion unchanged. -/
theorem transformObjectValues_top_level_cex :
    transformObjectValues {} (JVal.vStr "true") ≠ JVal.vBool true ∧
    transformObjectValues { deep := true }
        (JVal.vObj [("arr", JVal.vArr [JVal.vStr "true"])]) ≠
      JVal.vObj [("arr", JVal.vArr [JVal.vBool true])] := by
  constructor <;> decide

/-- C3, amended: non-object, non-array input is returned unchanged with no
leaf rule applied (a top-level `"true"` stays a string); with `deep` set,
array elements are recursively passed through `transformObjectValues`
under the same options, which applies the leaf rule only inside object
entries, so `transformObjectValues({arr:["true"]}, {deep:true})` yields
`{arr:["true"]}` while a nested object entry is still coerced. -/
theorem transformObjectValues_top_level_amended (opts : TransformOptions) (v : JVal)
    (xs : List JVal) (hobj : v.isObject = false) (harr : v.isArray = false) :
    transformObjectValues opts v = v ∧
    (opts.deep = true →
      transformObjectValues opts (JVal.vArr xs) =
        JVal.vArr (xs.map (transformObjectValues opts))) ∧
    transformObjectValues { deep := true }
        (JVal.vObj [("arr", JVal.vArr [JVal.vStr "true"])]) =
      JVal.vObj [("arr", JVal.vArr [JVal.vStr "true"])] ∧
    transformObjectValues { deep := true }
        (JVal.vObj [("arr", JVal.vArr [JVal.vObj [("k", JVal.vStr "true")]])]) =
      JVal.vObj [("arr", JVal.vArr [JVal.vObj [("k", JVal.vBool true)]])] := by
  refine ⟨?_, ?_, by decide, by decide⟩
  · cases v <;> simp_all [transformObjectValues, JVal.isObject, JVal.isArray]
  · intro hd
    simp [transformObjectValues, hd, transformList_eq_map]

theorem transformObjectValues_top_level_amended_witness :
    (JVal.vStr "true").isObject = false ∧ (JVal.vStr "true").isArray = false ∧
    transformObjectValues {} (JVal.vStr "true") = JVal.vStr "true" :=
  ⟨by decide, by decide,
    (transformObjectValues_top_level_amended {} (JVal.vStr "true") []
      (by decide) (by decide)).1⟩

/-- C4: an object-entry value that is exactly one of the literal tokens is
replaced by the corresponding typed literal, before (and regardless of)
date and number parsing; the table contains `"true"`, `"false"`, `"null"`,
`"undefined"` always and the special numerics exactly when
`parseSpecialNumbers` is set. -/
theorem transformValue_literal_table (opts : TransformOptions) (k s : String)
    (lit : JVal) (htr : opts.transformer = none)
    (hlit : simpleMapLookup opts.parseSpecialNumbers s = some lit) :
    transformValue opts k (JVal.vStr s) = lit ∧
    (∀ psn : Bool,
      simpleMapLookup psn "true" = some (JVal.vBool true) ∧
      simpleMapLookup psn "false" = some (JVal.vBool false) ∧
      simpleMapLookup psn "null" = some JVal.vNull ∧
      simpleMapLookup psn "undefined" = some JVal.vUndefined) ∧
    simpleMapLookup true "NaN" = some (JVal.vNum JNum.nan) ∧
    simpleMapLookup true "Infinity" = some (JVal.vNum JNum.posInf) ∧
    simpleMapLookup true "-Infinity" = some (JVal.vNum JNum.negInf) ∧
    simpleMapLookup false "NaN" = none ∧
    simpleMapLookup false "Infinity" = none ∧
    simpleMapLookup false "-Infinity" = none ∧
    transformObjectValues { parseDates := true, parseNumbers := true }
        (JVal.vObj [("a", JVal.vStr "true"), ("b", JVal.vStr "false"),
          ("c", JVal.vStr "null"), ("d", JVal.vStr "undefined")]) =
      JVal.vObj [("a", JVal.vBool true), ("b", JVal.vBool false),
        ("c", JVal.vNull), ("d", JVal.vUndefined)] := by
  refine ⟨?_, by intro psn; cases psn <;> exact ⟨rfl, rfl, rfl, rfl⟩,
    rfl, rfl, rfl, rfl, rfl, rfl, by decide⟩
  have hs : s ≠ "" := by
    intro he
    rw [he, simpleMapLookup_empty] at hlit
    exact Option.noConfusion hlit
  simp [transformValue, htr, stringRules, hs, hlit]

theorem transformValue_literal_table_witness :
    transformValue { parseDates := true, parseNumbers := true } "k"
        (JVal.vStr "true") = JVal.vBool true :=
  (transformValue_literal_table { parseDates := true, parseNumbers := true }
    "k" "true" (JVal.vBool true) rfl rfl).1

/-- C5: with a transformer configured, it is consulted before every
built-in rule; a result different from the input is returned verbatim and
no built-in rule (empty string, literal table, date, number) runs, however
the flags are set; a result equal to the input falls through to the
built-in rule chain `applyRules`. -/
theorem transformValue_transformer_precedence (opts : TransformOptions)
    (t : JVal → String → JVal) (k : String) (val : JVal)
    (htr : opts.transformer = some t) :
    (t val k ≠ val → transformValue opts k val = t val k) ∧
    (t val k = val → transformValue opts k val = applyRules opts k val) := by
  rw [transformValue_eq_code, htr]
  constructor
  · intro hne; simp [hne]
  · intro heq; simp [heq]

theorem transformValue_transformer_precedence_witness :
    transformValue
        { transformer := some fun _ _ => JVal.vStr "X",
          parseNumbers := true, parseDates := true } "k"
        (JVal.vStr "true") = JVal.vStr "X" ∧
    transformValue { transformer := some fun v _ => v } "k"
        (JVal.vStr "true") = JVal.vBool true := by
  constructor
  · exact (transformValue_transformer_precedence
      { transformer := some fun _ _ => JVal.vStr "X",
        parseNumbers := true, parseDates := true }
      (fun _ _ => JVal.vStr "X") "k" (JVal.vStr "true") rfl).1 (by decide)
  · have h := (transformValue_transformer_precedence
      { transformer := some fun v _ => v } (fun v _ => v) "k"
      (JVal.vStr "true") rfl).2 rfl
    rw [h]; decide

/-- C6: with a key allow-list configured, an entry whose key is absent
from the list is copied through completely unchanged — no transformer, no
leaf rule, no deep recursion (the options, including any transformer and
all flags, are arbitrary here) — while allowed keys are still transformed:
`coerceValues({active:"true", other:"true"}, {keys:["active"]})` gives
`{active:true, other:"true"}`. -/
theorem transformEntries_key_allowlist (opts : TransformOptions)
    (ks : List String) (k : String) (v : JVal) (es : List (String × JVal))
    (hks : opts.keys = some ks) (habs : ks.contains k = false) :
    transformEntries opts ((k, v) :: es) = (k, v) :: transformEntries opts es ∧
    (∀ entries, transformObjectValues opts (JVal.vObj entries) =
      JVal.vObj (transformEntries opts entries)) ∧
    transformObjectValues { keys := some ["active"] }
        (JVal.vObj [("active", JVal.vStr "true"), ("other", JVal.vStr "true")]) =
      JVal.vObj [("active", JVal.vBool true), ("other", JVal.vStr "true")] := by
  refine ⟨?_, fun entries => rfl, by decide⟩
  have hka : keyAllowed opts.keys k = false := by
    simp only [keyAllowed, hks]; exact habs
  simp [transformEntries, hka]

theorem transformEntries_key_allowlist_witness :
    transformEntries { keys := some ["active"] }
        [("other", JVal.vStr "true")] = [("other", JVal.vStr "true")] := by
  have h := (transformEntries_key_allowlist { keys := some ["active"] }
    ["active"] "other" (JVal.vStr "true") [] rfl (by decide)).1
  rw [h]; rfl

/-- C8: a string that matches the ISO date pattern but yields an invalid
date instant makes the date rule not apply — the engine behaves exactly as
if `parseDates` were off, falling through to the numeric rule or leaving
the string unchanged, and no exception is possible (the embedding is a
total function). A string matching the numeric pattern can never parse to
NaN, so the corresponding numeric fall-through is vacuously safe; the
`Number.isNaN` guard is nonetheless present in the rule chain. -/
theorem transformValue_parse_failure (opts : TransformOptions) (k s : String)
    (htr : opts.transformer = none) (hiso : matchesISO s = true)
    (hbad : jsDateParse s = none) :
    transformValue opts k (JVal.vStr s) =
      transformValue { opts with parseDates := false } k (JVal.vStr s) ∧
    (∀ s2, matchesNumeric s2 = true → jsNumber s2 ≠ JNum.nan) := by
  constructor
  · have h1 : transformValue opts k (JVal.vStr s) = stringRules opts s := by
      simp [transformValue, htr]
    have h2 : transformValue { opts with parseDates := false } k (JVal.vStr s) =
        stringRules { opts with parseDates := false } s := by
      simp [transformValue, htr]
    rw [h1, h2]
    simp [stringRules, hiso, hbad]
  · intro s2 hm
    simp [jsNumber, hm]

theorem transformValue_parse_failure_witness :
    matchesISO "2024-02-30" = true ∧ jsDateParse "2024-02-30" = none ∧
    transformValue { parseDates := true, parseNumbers := true } "k"
        (JVal.vStr "2024-02-30") =
      transformValue
        { ({ parseDates := true, parseNumbers := true } : TransformOptions) with
            parseDates := false } "k" (JVal.vStr "2024-02-30") ∧
    matchesNumeric "42" = true ∧ jsNumber "42" ≠ JNum.nan := by
  have h := transformValue_parse_failure
    { parseDates := true, parseNumbers := true } "k" "2024-02-30"
    rfl (by decide) (by decide)
  exact ⟨by decide, by decide, h.1, by decide, h.2 "42" (by decide)⟩

/-- C9: the custom transformer is invoked on every visited entry value of
any type; for a container value a result different from the input replaces
the value verbatim, suppressing the deep recursion, and deep recursion
into the container happens when the transformer returns its input
unchanged. -/
theorem transformValue_transformer_containers (opts : TransformOptions)
    (t : JVal → String → JVal) (k : String) (val : JVal)
    (htr : opts.transformer = some t) :
    (t val k ≠ val → transformValue opts k val = t val k) ∧
    (t val k = val → opts.deep = true →
      (∀ xs, val = JVal.vArr xs →
        transformValue opts k val = transformObjectValues opts val) ∧
      (∀ es, val = JVal.vObj es →
        transformValue opts k val = transformObjectValues opts val)) := by
  constructor
  · intro hne; rw [transformValue_eq_code, htr]; simp [hne]
  · intro heq hd
    constructor
    · rintro xs rfl
      rw [transformValue_eq_code, htr]
      simp [heq, applyRules, JVal.isObjectType, hd]
    · rintro es rfl
      rw [transformValue_eq_code, htr]
      simp [heq, applyRules, JVal.isObjectType, hd]

theorem transformValue_transformer_containers_witness :
    transformValue
        { deep := true, transformer := some fun _ _ => JVal.vNull } "k"
        (JVal.vArr [JVal.vObj [("a", JVal.vStr "true")]]) = JVal.vNull ∧
    transformValue { deep := true, transformer := some fun v _ => v } "k"
        (JVal.vArr [JVal.vObj [("a", JVal.vStr "true")]]) =
      JVal.vArr [JVal.vObj [("a", JVal.vBool true)]] := by
  constructor
  · exact (transformValue_transformer_containers
      { deep := true, transformer := some fun _ _ => JVal.vNull }
      (fun _ _ => JVal.vNull) "k"
      (JVal.vArr [JVal.vObj [("a", JVal.vStr "true")]]) rfl).1 (by decide)
  · have h := ((transformValue_transformer_containers
      { deep := true, transformer := some fun v _ => v } (fun v _ => v) "k"
      (JVal.vArr [JVal.vObj [("a", JVal.vStr "true")]]) rfl).2 rfl rfl).1
      [JVal.vObj [("a", JVal.vStr "true")]] rfl
    rw [h]; decide

/- ===================== Part 2: structural cloner ===================== -/

/-- Primitive values as classified by `isPrimitive` (src/typed.ts): null,
undefined, booleans, numbers, strings, bigints, and symbols (primitive,
but carrying an identity `id` besides their description). -/
inductive Prim where
  | pNull
  | pUndefined
  | pBool (b : Bool)
  | pNum (n : JNum)
  | pStr (s : String)
  | pBigInt (i : Int)
  | pSym (id : Nat) (descr : Option String)
deriving DecidableEq

/-- A JavaScript value for the cloner: a primitive, or a reference to a
heap object (reference identity is the heap address). -/
inductive HVal where
  | prim (p : Prim)
  | ref (a : Nat)
deriving DecidableEq

/-- `isPrimitive` (src/typed.ts): true for every non-reference value,
symbols included (the typed.ts tests assert `isPrimitive(Symbol())`). -/
def HVal.isPrimitive : HVal → Bool
  | HVal.prim _ => true
  | HVal.ref _ => false

/-- `isSymbol` (src/typed.ts). -/
def HVal.isSymbol : HVal → Bool
  | HVal.prim (Prim.pSym _ _) => true
  | _ => false

/-- Heap objects: the four container kinds `deepClone` distinguishes.
Plain objects keep their own enumerable string-keyed properties (in
`Object.keys` order) separate from their symbol-keyed properties (in
`getOwnPropertySymbols` order, each key identified by id and description). -/
inductive HObj where
  | objO (strProps : List (String × HVal))
         (symProps : List ((Nat × Option String) × HVal))
  | arrO (elems : List HVal)
  | mapO (pairs : List (HVal × HVal))
  | setO (elems : List HVal)
deriving DecidableEq

/-- All values directly contained in an object (for maps: keys and values). -/
def HObj.subvalues : HObj → List HVal
  | HObj.objO ss sys => ss.map Prod.snd ++ sys.map Prod.snd
  | HObj.arrO xs => xs
  | HObj.mapO ps => ps.map Prod.fst ++ ps.map Prod.snd
  | HObj.setO xs => xs

/-- The heap: an association list of allocated objects (most recent first;
an address may be re-bound by a write, the first binding wins) together
with the next fresh address. -/
structure Heap where
  objs : List (Nat × HObj)
  next : Nat
deriving DecidableEq

/-- First-match association lookup. -/
def lookupA : List (Nat × HObj) → Nat → Option HObj
  | [], _ => none
  | (b, o) :: rest, a => if a = b then some o else lookupA rest a

def Heap.lookup (h : Heap) (a : Nat) : Option HObj := lookupA h.objs a

/-- The `WeakMap` used for circular references: source address ↦ clone
address, most recent entry first. -/
def hashFind : List (Nat × Nat) → Nat → Option Nat
  | [], _ => none
  | (b, c) :: rest, a => if a = b then some c else hashFind rest a

/-- The full state threaded through a clone run: the (shared) heap, the
`hash` WeakMap, and a counter supplying fresh symbol identities. -/
structure CState where
  heap : Heap
  hash : List (Nat × Nat)
  symCtr : Nat
deriving DecidableEq

/-- Allocate a placeholder clone container for source address `a` and
register it in the hash *before* populating it (src/object.ts:62, 72, 83:
the registration-before-population invariant). -/
def regAlloc (st : CState) (a : Nat) (po : HObj) : CState :=
  { heap := { objs := (st.heap.next, po) :: st.heap.objs, next := st.heap.next + 1 },
    hash := (a, st.heap.next) :: st.hash,
    symCtr := st.symCtr }

/-- Write the final contents of the clone container at address `b`
(modelling the in-place population of the registered container). -/
def writeObj (st : CState) (b : Nat) (o : HObj) : CState :=
  { st with heap := { objs := (b, o) :: st.heap.objs, next := st.heap.next } }

/-- `source.forEach(value => newSet.add(deepClone(value, hash)))` and the
array/object property loops: clone each element left to right, threading
the state; `f` is the recursive clone call. -/
def cloneListF (f : CState → HVal → Option (HVal × CState)) :
    CState → List HVal → Option (List HVal × CState)
  | st, [] => some ([], st)
  | st, x :: xs =>
    match f st x with
    | none => none
    | some (y, st1) =>
      match cloneListF f st1 xs with
      | none => none
      | some (ys, st2) => some (y :: ys, st2)

/-- The Map loop (src/object.ts:73-76): for each pair, the key is reused
as-is when primitive and cloned otherwise (`isPrimitive(key) ? key :
deepClone(key, hash)`), then the value is cloned. -/
def clonePairsF (f : CState → HVal → Option (HVal × CState)) :
    CState → List (HVal × HVal) → Option (List (HVal × HVal) × CState)
  | st, [] => some ([], st)
  | st, (k, v) :: ps =>
    match (if k.isPrimitive then some (k, st) else f st k) with
    | none => none
    | some (k2, st1) =>
      match f st1 v with
      | none => none
      | some (v2, st2) =>
        match clonePairsF f st2 ps with
        | none => none
        | some (qs, st3) => some ((k2, v2) :: qs, st3)

/-- The string-keyed property loop (src/object.ts:91-93): keys are kept,
values cloned. -/
def cloneEntriesF (f : CState → HVal → Option (HVal × CState)) :
    CState → List (String × HVal) → Option (List (String × HVal) × CState)
  | st, [] => some ([], st)
  | st, (k, v) :: es =>
    match f st v with
    | none => none
    | some (v2, st1) =>
      match cloneEntriesF f st1 es with
      | none => none
      | some (fs, st2) => some ((k, v2) :: fs, st2)

/-- The symbol-keyed property loop (src/object.ts:95-97): the symbol keys
themselves are reused identically, values cloned. -/
def cloneSymsF (f : CState → HVal → Option (HVal × CState)) :
    CState → List ((Nat × Option String) × HVal) →
      Option (List ((Nat × Option String) × HVal) × CState)
  | st, [] => some ([], st)
  | st, (k, v) :: es =>
    match f st v with
    | none => none
    | some (v2, st1) =>
      match cloneSymsF f st1 es with
      | none => none
      | some (fs, st2) => some ((k, v2) :: fs, st2)

/-- One unfolding of `deepClone(source, hash)` (src/object.ts:43-101) with
`f` standing for the recursive call. In order: the hash check for circular
references (a no-op for primitives, since `WeakMap.has` is always false on
a primitive key, so the model performs it only on references); the symbol
case, producing `Symbol(source.description)` — a fresh identity with the
same description; all other primitives returned as-is; then Set, Map,
array and plain object, each allocating an empty container, registering it
in the hash before populating, and cloning contents in iteration order. -/
def cloneStep (f : CState → HVal → Option (HVal × CState)) (st : CState)
    (v : HVal) : Option (HVal × CState) :=
  match v with
  | HVal.prim (Prim.pSym _ d) =>
    some (HVal.prim (Prim.pSym st.symCtr d), { st with symCtr := st.symCtr + 1 })
  | HVal.prim p => some (HVal.prim p, st)
  | HVal.ref a =>
    match hashFind st.hash a with
    | some b => some (HVal.ref b, st)
    | none =>
      match st.heap.lookup a with
      | none => none
      | some (HObj.setO xs) =>
        let b := st.heap.next
        let st1 := regAlloc st a (HObj.setO [])
        match cloneListF f st1 xs with
        | none => none
        | some (ys, st2) => some (HVal.ref b, writeObj st2 b (HObj.setO ys))
      | some (HObj.mapO ps) =>
        let b := st.heap.next
        let st1 := regAlloc st a (HObj.mapO [])
        match clonePairsF f st1 ps with
        | none => none
        | some (qs, st2) => some (HVal.ref b, writeObj st2 b (HObj.mapO qs))
      | some (HObj.arrO xs) =>
        let b := st.heap.next
        let st1 := regAlloc st a (HObj.arrO [])
        match cloneListF f st1 xs with
        | none => none
        | some (ys, st2) => some (HVal.ref b, writeObj st2 b (HObj.arrO ys))
      | some (HObj.objO ss sys) =>
        let b := st.heap.next
        let st1 := regAlloc st a (HObj.objO [] [])
        match cloneEntriesF f st1 ss with
        | none => none
        | some (ss2, st2) =>
          match cloneSymsF f st2 sys with
          | none => none
          | some (sys2, st3) =>
            some (HVal.ref b, writeObj st3 b (HObj.objO ss2 sys2))

/-- `deepClone`, fuel-indexed (the fuel is an artifact of the embedding;
`cloneV_total` below shows that fuel exceeding the closed address set's
size always suffices). -/
def cloneV : Nat → CState → HVal → Option (HVal × CState)
  | 0, _, _ => none
  | Nat.succ fuel, st, v => cloneStep (cloneV fuel) st v

/-- Top-level `deepClone(source)`: fresh empty WeakMap. -/
def deepClone (fuel : Nat) (h : Heap) (symCtr : Nat) (v : HVal) :
    Option (HVal × CState) :=
  cloneV fuel { heap := h, hash := [], symCtr := symCtr } v

/- ================== Cloner: invariants and relations ================== -/

/-- A value's references all lie in the address set `D`. -/
def HVal.refsInB (D : List Nat) : HVal → Bool
  | HVal.prim _ => true
  | HVal.ref a => D.contains a

/-- An object's contained values all point into `D`. -/
def HObj.refsInB (D : List Nat) (o : HObj) : Bool :=
  o.subvalues.all (HVal.refsInB D)

/-- Every address of `D` is allocated in `h` and its object points back
into `D`: `D` is a closed portion of the heap. -/
def closedOn (h : Heap) (D : List Nat) : Bool :=
  D.all (fun a =>
    match h.lookup a with
    | some o => HObj.refsInB D o
    | none => false)

/-- Well-formedness of the input heap for a clone run: a duplicate-free
closed address set below the allocation frontier. -/
def heapWF (h : Heap) (D : List Nat) : Bool :=
  decide D.Nodup && closedOn h D && D.all (fun a => decide (a < h.next)) &&
    h.objs.all (fun p => decide (p.1 < h.next))

/-- State invariant of a clone run relative to the original heap `h0` and
its closed address set `D`: the source portion is untouched, the hash maps
source addresses to distinct, live, fresh clone addresses, and the
allocation frontier bounds everything. -/
structure StInv (h0 : Heap) (D : List Nat) (st : CState) : Prop where
  frameD : ∀ a ∈ D, st.heap.lookup a = h0.lookup a
  dbnd : ∀ a ∈ D, a < st.heap.next
  wfh : ∀ p ∈ st.heap.objs, p.1 < st.heap.next
  hdom : ∀ p ∈ st.hash, p.1 ∈ D
  hrngLt : ∀ p ∈ st.hash, p.2 < st.heap.next
  hrngDom : ∀ p ∈ st.hash, (st.heap.lookup p.2).isSome
  hrngFresh : ∀ p ∈ st.hash, p.2 ∉ D
  hkeysNodup : (st.hash.map Prod.fst).Nodup
  hrngNodup : (st.hash.map Prod.snd).Nodup

/-- Clone relation on values, relative to a hash: non-symbol primitives
are returned as-is, a symbol is replaced by a symbol with the same
description, and a reference maps to the registered clone reference. -/
def RELp (hs : List (Nat × Nat)) : HVal → HVal → Prop
  | HVal.prim (Prim.pSym _ d), w => ∃ i, w = HVal.prim (Prim.pSym i d)
  | HVal.prim p, w => w = HVal.prim p
  | HVal.ref a, w => ∃ b, w = HVal.ref b ∧ hashFind hs a = some b

/-- Clone relation on Map keys: a primitive key (symbols included) is
reused as-is, a reference key maps to its registered clone. -/
def RELk (hs : List (Nat × Nat)) : HVal → HVal → Prop
  | HVal.prim p, w => w = HVal.prim p
  | HVal.ref a, w => ∃ b, w = HVal.ref b ∧ hashFind hs a = some b

/-- Clone relation on objects: same kind, contents pointwise related in
order; object property keys (string and symbol) are preserved. -/
def ObjRel (hs : List (Nat × Nat)) : HObj → HObj → Prop
  | HObj.objO ss sys, HObj.objO ss2 sys2 =>
    List.Forall₂ (fun p q => p.1 = q.1 ∧ RELp hs p.2 q.2) ss ss2 ∧
      List.Forall₂ (fun p q => p.1 = q.1 ∧ RELp hs p.2 q.2) sys sys2
  | HObj.arrO xs, HObj.arrO ys => List.Forall₂ (RELp hs) xs ys
  | HObj.mapO ps, HObj.mapO qs =>
    List.Forall₂ (fun p q => RELk hs p.1 q.1 ∧ RELp hs p.2 q.2) ps qs
  | HObj.setO xs, HObj.setO ys => List.Forall₂ (RELp hs) xs ys
  | _, _ => False

/-- Addresses `a` (source) and `b` (clone) hold objects related by the
clone relation. -/
def MatchA (st : CState) (a b : Nat) : Prop :=
  ∃ o o2, st.heap.lookup a = some o ∧ st.heap.lookup b = some o2 ∧
    ObjRel st.hash o o2

/-- Every completed hash entry (source outside the pending set `P`) is
matched with its clone. -/
def HashOK (st : CState) (P : List Nat) : Prop :=
  ∀ p ∈ st.hash, p.1 ∉ P → MatchA st p.1 p.2

/-- Hash-lookup preservation between two hash states. -/
def FindPres (hs hs2 : List (Nat × Nat)) : Prop :=
  ∀ a b, hashFind hs a = some b → hashFind hs2 a = some b

/- ======================= Basic lemmas ======================= -/

theorem hashFind_eq_none {hs : List (Nat × Nat)} {a : Nat} :
    hashFind hs a = none ↔ a ∉ hs.map Prod.fst := by
  induction hs with
  | nil => simp [hashFind]
  | cons p rest ih =>
    obtain ⟨b, c⟩ := p
    by_cases hab : a = b <;> simp [hashFind, hab, ih]

theorem hashFind_mem {hs : List (Nat × Nat)} {a b : Nat}
    (h : hashFind hs a = some b) : (a, b) ∈ hs := by
  induction hs with
  | nil => simp [hashFind] at h
  | cons p rest ih =>
    obtain ⟨x, y⟩ := p
    by_cases hax : a = x
    · subst hax
      simp [hashFind] at h
      simp [h]
    · simp [hashFind, hax] at h
      exact List.mem_cons_of_mem _ (ih h)

theorem hashFind_cons_ne {hs : List (Nat × Nat)} {a x y : Nat} (h : a ≠ x) :
    hashFind ((x, y) :: hs) a = hashFind hs a := by
  simp [hashFind, h]

theorem findPres_refl (hs : List (Nat × Nat)) : FindPres hs hs := fun _ _ h => h

theorem findPres_trans {h1 h2 h3 : List (Nat × Nat)}
    (a : FindPres h1 h2) (b : FindPres h2 h3) : FindPres h1 h3 :=
  fun x y h => b x y (a x y h)

theorem findPres_cons {hs : List (Nat × Nat)} {a b : Nat}
    (h : hashFind hs a = none) : FindPres hs ((a, b) :: hs) := by
  intro x y hx
  have hxa : x ≠ a := by
    intro he; subst he; rw [hx] at h; exact Option.noConfusion h
  rw [hashFind_cons_ne hxa]
  exact hx

theorem lookupA_cons_ne {os : List (Nat × HObj)} {a b : Nat} {o : HObj}
    (h : a ≠ b) : lookupA ((b, o) :: os) a = lookupA os a := by
  simp [lookupA, h]

theorem lookupA_cons_self {os : List (Nat × HObj)} {b : Nat} {o : HObj} :
    lookupA ((b, o) :: os) b = some o := by
  simp [lookupA]

theorem lookupA_mem {os : List (Nat × HObj)} {a : Nat} {o : HObj}
    (h : lookupA os a = some o) : (a, o) ∈ os := by
  induction os with
  | nil => simp [lookupA] at h
  | cons p rest ih =>
    obtain ⟨x, y⟩ := p
    by_cases hax : a = x
    · subst hax
      simp [lookupA] at h
      simp [h]
    · simp [lookupA, hax] at h
      exact List.mem_cons_of_mem _ (ih h)

/-- A lookup beyond the frontier of a frontier-bounded heap fails. -/
theorem lookup_ge_next {h : Heap} (hwf : ∀ p ∈ h.objs, p.1 < h.next)
    {a : Nat} (ha : h.next ≤ a) : h.lookup a = none := by
  cases hl : h.lookup a with
  | none => rfl
  | some o =>
    have := hwf _ (lookupA_mem hl)
    omega

theorem RELp_mono {hs hs2 : List (Nat × Nat)} (hp : FindPres hs hs2)
    {v w : HVal} (h : RELp hs v w) : RELp hs2 v w := by
  cases v with
  | prim p =>
    cases p <;> simp_all [RELp]
  | ref a =>
    obtain ⟨b, rfl, hf⟩ := h
    exact ⟨b, rfl, hp a b hf⟩

theorem RELk_mono {hs hs2 : List (Nat × Nat)} (hp : FindPres hs hs2)
    {v w : HVal} (h : RELk hs v w) : RELk hs2 v w := by
  cases v with
  | prim p => simp_all [RELk]
  | ref a =>
    obtain ⟨b, rfl, hf⟩ := h
    exact ⟨b, rfl, hp a b hf⟩

theorem ObjRel_mono {hs hs2 : List (Nat × Nat)} (hp : FindPres hs hs2)
    {o o2 : HObj} (h : ObjRel hs o o2) : ObjRel hs2 o o2 := by
  cases o <;> cases o2 <;> simp_all [ObjRel]
  case objO.objO =>
    exact ⟨h.1.imp fun p q hx => ⟨hx.1, RELp_mono hp hx.2⟩,
      h.2.imp fun p q hx => ⟨hx.1, RELp_mono hp hx.2⟩⟩
  case arrO.arrO => exact h.imp fun p q hx => RELp_mono hp hx
  case mapO.mapO =>
    exact h.imp fun p q hx => ⟨RELk_mono hp hx.1, RELp_mono hp hx.2⟩
  case setO.setO => exact h.imp fun p q hx => RELp_mono hp hx

/-- What a (partial) clone run does to the state: the hash only grows (old
lookups preserved, new clone addresses at or above the old frontier), the
heap below the old frontier is untouched, and the frontier and symbol
counter only advance. -/
structure Evolve (st st2 : CState) : Prop where
  fp : FindPres st.hash st2.hash
  nmono : st.heap.next ≤ st2.heap.next
  frame : ∀ a, a < st.heap.next → st2.heap.lookup a = st.heap.lookup a
  hnew : ∀ p ∈ st2.hash, p ∈ st.hash ∨ st.heap.next ≤ p.2
  smono : st.symCtr ≤ st2.symCtr

theorem evolve_refl (st : CState) : Evolve st st :=
  ⟨findPres_refl _, le_rfl, fun _ _ => rfl, fun p hp => Or.inl hp, le_rfl⟩

theorem evolve_trans {st1 st2 st3 : CState} (a : Evolve st1 st2)
    (b : Evolve st2 st3) : Evolve st1 st3 := by
  refine ⟨findPres_trans a.fp b.fp, le_trans a.nmono b.nmono, ?_, ?_,
    le_trans a.smono b.smono⟩
  · intro x hx
    rw [b.frame x (lt_of_lt_of_le hx a.nmono), a.frame x hx]
  · intro p hp
    rcases b.hnew p hp with h | h
    · exact a.hnew p h
    · exact Or.inr (le_trans a.nmono h)

theorem nodup_fst_entry {hs : List (Nat × Nat)}
    (hnd : (hs.map Prod.fst).Nodup) {a b c : Nat}
    (h1 : (a, b) ∈ hs) (h2 : (a, c) ∈ hs) : b = c := by
  induction hs with
  | nil => simp at h1
  | cons p rest ih =>
    obtain ⟨x, y⟩ := p
    simp only [List.map_cons, List.nodup_cons] at hnd
    rcases List.mem_cons.1 h1 with h1 | h1 <;>
      rcases List.mem_cons.1 h2 with h2 | h2
    · rw [← h1] at h2
      exact (Prod.mk.injEq _ _ _ _ ▸ h2).2.symm
    · exfalso
      injection h1 with e1 _
      apply hnd.1
      rw [← e1]
      exact List.mem_map.2 ⟨(a, c), h2, rfl⟩
    · exfalso
      injection h2 with e1 _
      apply hnd.1
      rw [← e1]
      exact List.mem_map.2 ⟨(a, b), h1, rfl⟩
    · exact ih hnd.2 h1 h2

theorem nodup_snd_entry {hs : List (Nat × Nat)}
    (hnd : (hs.map Prod.snd).Nodup) {a b c : Nat}
    (h1 : (a, c) ∈ hs) (h2 : (b, c) ∈ hs) : a = b := by
  induction hs with
  | nil => simp at h1
  | cons p rest ih =>
    obtain ⟨x, y⟩ := p
    simp only [List.map_cons, List.nodup_cons] at hnd
    rcases List.mem_cons.1 h1 with h1 | h1 <;>
      rcases List.mem_cons.1 h2 with h2 | h2
    · rw [← h1] at h2
      exact (Prod.mk.injEq _ _ _ _ ▸ h2).1.symm
    · exfalso
      injection h1 with _ e2
      apply hnd.1
      rw [← e2]
      exact List.mem_map.2 ⟨(b, c), h2, rfl⟩
    · exfalso
      injection h2 with _ e2
      apply hnd.1
      rw [← e2]
      exact List.mem_map.2 ⟨(a, c), h1, rfl⟩
    · exact ih hnd.2 h1 h2

theorem closedOn_spec {h : Heap} {D : List Nat} (hc : closedOn h D = true)
    {a : Nat} (ha : a ∈ D) :
    ∃ o, h.lookup a = some o ∧ HObj.refsInB D o = true := by
  simp only [closedOn, List.all_eq_true] at hc
  have := hc a ha
  cases hl : h.lookup a with
  | none => rw [hl] at this; simp at this
  | some o => rw [hl] at this; exact ⟨o, rfl, this⟩

theorem refsInB_ref {D : List Nat} {a : Nat} :
    HVal.refsInB D (HVal.ref a) = true ↔ a ∈ D := by
  simp [HVal.refsInB]

/-- MatchA is preserved by evolution that leaves the two addresses' heap
entries alone. -/
theorem MatchA_pres {st st2 : CState} {a b : Nat}
    (hla : st2.heap.lookup a = st.heap.lookup a)
    (hlb : st2.heap.lookup b = st.heap.lookup b)
    (hfp : FindPres st.hash st2.hash)
    (m : MatchA st a b) : MatchA st2 a b := by
  obtain ⟨o, o2, h1, h2, h3⟩ := m
  exact ⟨o, o2, hla ▸ h1, hlb ▸ h2, ObjRel_mono hfp h3⟩

/-- Registering a fresh placeholder clone for an unvisited source address
preserves the state invariant, keeps completed hash entries matched (the
new source address becomes pending), and evolves the state. -/
theorem regAlloc_sound {h0 : Heap} {D : List Nat} {st : CState} {a : Nat}
    (po : HObj) (inv : StInv h0 D st) (ha : a ∈ D)
    (hnone : hashFind st.hash a = none) :
    StInv h0 D (regAlloc st a po) ∧ Evolve st (regAlloc st a po) ∧
    (∀ P, HashOK st P → HashOK (regAlloc st a po) (a :: P)) ∧
    hashFind (regAlloc st a po).hash a = some st.heap.next := by
  set b := st.heap.next with hb
  have hbD : b ∉ D := fun hmem => absurd (inv.dbnd b hmem) (by omega)
  have hfp : FindPres st.hash (regAlloc st a po).hash := findPres_cons hnone
  have hframe : ∀ x, x < st.heap.next →
      (regAlloc st a po).heap.lookup x = st.heap.lookup x := by
    intro x hx
    have : x ≠ b := by omega
    exact lookupA_cons_ne this
  have hmemA : a ∉ st.hash.map Prod.fst := hashFind_eq_none.1 hnone
  have hev : Evolve st (regAlloc st a po) := by
    refine ⟨hfp, by simp [regAlloc], hframe, ?_, le_rfl⟩
    intro p hp
    rcases List.mem_cons.1 hp with h | h
    · right; rw [h]
    · exact Or.inl h
  refine ⟨?_, hev, ?_, by simp [regAlloc, hashFind]⟩
  · refine ⟨?_, ?_, ?_, ?_, ?_, ?_, ?_, ?_, ?_⟩
    · intro x hx
      rw [hframe x (inv.dbnd x hx)]
      exact inv.frameD x hx
    · intro x hx
      have := inv.dbnd x hx
      simp only [regAlloc]
      omega
    · intro p hp
      rcases List.mem_cons.1 hp with h | h
      · rw [h]; simp [regAlloc]
      · have := inv.wfh p h
        simp only [regAlloc]
        omega
    · intro p hp
      rcases List.mem_cons.1 hp with h | h
      · rw [h]; exact ha
      · exact inv.hdom p h
    · intro p hp
      rcases List.mem_cons.1 hp with h | h
      · rw [h]; simp [regAlloc]
      · have := inv.hrngLt p h
        simp only [regAlloc]
        omega
    · intro p hp
      rcases List.mem_cons.1 hp with h | h
      · rw [h]
        simp [regAlloc, Heap.lookup, lookupA]
      · have hlt := inv.hrngLt p h
        have : p.2 ≠ b := by omega
        have hfr : (regAlloc st a po).heap.lookup p.2 = st.heap.lookup p.2 :=
          lookupA_cons_ne this
        rw [hfr]
        exact inv.hrngDom p h
    · intro p hp
      rcases List.mem_cons.1 hp with h | h
      · rw [h]; exact hbD
      · exact inv.hrngFresh p h
    · simp only [regAlloc, List.map_cons, List.nodup_cons]
      exact ⟨hmemA, inv.hkeysNodup⟩
    · simp only [regAlloc, List.map_cons, List.nodup_cons]
      refine ⟨?_, inv.hrngNodup⟩
      intro hmem
      obtain ⟨p, hp, hpb⟩ := List.mem_map.1 hmem
      have := inv.hrngLt p hp
      omega
  · intro P hok p hp hnotin
    have hpa : p.1 ≠ a := fun he => hnotin (by rw [he]; exact List.mem_cons_self a P)
    have hpP : p.1 ∉ P := fun hmem => hnotin (List.mem_cons_of_mem a hmem)
    rcases List.mem_cons.1 hp with h | h
    · exfalso; apply hpa; rw [h]
    · have m := hok p h hpP
      refine MatchA_pres ?_ ?_ hfp m
      · exact hframe p.1 (inv.dbnd p.1 (inv.hdom p h))
      · exact hframe p.2 (inv.hrngLt p h)

theorem writeObj_lookup_self {st : CState} {b : Nat} {o : HObj} :
    (writeObj st b o).heap.lookup b = some o := by
  simp [writeObj, Heap.lookup, lookupA]

theorem writeObj_lookup_ne {st : CState} {b : Nat} {o : HObj} {x : Nat}
    (h : x ≠ b) : (writeObj st b o).heap.lookup x = st.heap.lookup x := by
  simp only [writeObj, Heap.lookup]
  exact lookupA_cons_ne h

/-- Writing the final contents into the registered (still pending) clone
container completes it: the source address leaves the pending set, every
completed hash entry is matched, and the cloned reference is related to
its source. -/
theorem finish_container {h0 : Heap} {D P : List Nat}
    {st st2 : CState} {a : Nat} {o o2 : HObj} (po : HObj)
    (inv : StInv h0 D st)
    (ha : a ∈ D)
    (hnone : hashFind st.hash a = none)
    (hlook : st.heap.lookup a = some o)
    (inv2 : StInv h0 D st2)
    (hok2 : HashOK st2 (a :: P))
    (ev2 : Evolve (regAlloc st a po) st2)
    (hrel : ObjRel st2.hash o o2) :
    StInv h0 D (writeObj st2 st.heap.next o2) ∧
    HashOK (writeObj st2 st.heap.next o2) P ∧
    RELp (writeObj st2 st.heap.next o2).hash (HVal.ref a)
      (HVal.ref st.heap.next) ∧
    Evolve st (writeObj st2 st.heap.next o2) := by
  obtain ⟨inv1, ev1, hoktrans, hfind1⟩ := regAlloc_sound po inv ha hnone
  set b := st.heap.next with hbdef
  have hreg_next : (regAlloc st a po).heap.next = b + 1 := rfl
  have hb_lt2 : b < st2.heap.next := by
    have := ev2.nmono
    rw [hreg_next] at this
    omega
  have hfind2 : hashFind st2.hash a = some b := ev2.fp a b hfind1
  have hmem2 : (a, b) ∈ st2.hash := hashFind_mem hfind2
  have hbD : b ∉ D := fun hmem => absurd (inv.dbnd b hmem) (by omega)
  have habne : a ≠ b := fun he => hbD (he ▸ ha)
  have hwhash : (writeObj st2 b o2).hash = st2.hash := rfl
  have hwnext : (writeObj st2 b o2).heap.next = st2.heap.next := rfl
  have hlook2a : st2.heap.lookup a = some o := by
    rw [inv2.frameD a ha, ← inv.frameD a ha]
    exact hlook
  have hmatch_new : MatchA (writeObj st2 b o2) a b := by
    refine ⟨o, o2, ?_, writeObj_lookup_self, ?_⟩
    · rw [writeObj_lookup_ne habne]
      exact hlook2a
    · rw [hwhash]; exact hrel
  refine ⟨?_, ?_, ⟨b, rfl, by rw [hwhash]; exact hfind2⟩, ?_⟩
  · refine ⟨?_, ?_, ?_, ?_, ?_, ?_, ?_, ?_, ?_⟩
    · intro x hx
      have hxb : x ≠ b := fun he => hbD (he ▸ hx)
      rw [writeObj_lookup_ne hxb]
      exact inv2.frameD x hx
    · intro x hx
      rw [hwnext]
      exact inv2.dbnd x hx
    · intro p hp
      rcases List.mem_cons.1 hp with h | h
      · rw [h, hwnext]; exact hb_lt2
      · rw [hwnext]; exact inv2.wfh p h
    · exact inv2.hdom
    · intro p hp
      rw [hwnext]
      exact inv2.hrngLt p hp
    · intro p hp
      by_cases hpb : p.2 = b
      · rw [hpb, writeObj_lookup_self]; simp
      · rw [writeObj_lookup_ne hpb]
        exact inv2.hrngDom p hp
    · exact inv2.hrngFresh
    · exact inv2.hkeysNodup
    · exact inv2.hrngNodup
  · intro p hp hnotin
    rw [hwhash] at hp
    by_cases hpa : p.1 = a
    · have hpb : p.2 = b := by
        apply nodup_fst_entry inv2.hkeysNodup _ hmem2
        rw [← hpa]
        exact hp
      have : p = (a, b) := by
        obtain ⟨p1, p2⟩ := p
        simp_all
      rw [this]
      exact hmatch_new
    · have hm2 := hok2 p hp (by
        intro hmem
        rcases List.mem_cons.1 hmem with h | h
        · exact hpa h
        · exact hnotin h)
      have hp1b : p.1 ≠ b := fun he => hbD (he ▸ inv2.hdom p hp)
      have hp2b : p.2 ≠ b := by
        intro he
        exact hpa (nodup_snd_entry inv2.hrngNodup (he ▸ hp) hmem2)
      exact MatchA_pres (writeObj_lookup_ne hp1b) (writeObj_lookup_ne hp2b)
        (by rw [hwhash]; exact findPres_refl _) hm2
  · refine ⟨?_, ?_, ?_, ?_, ?_⟩
    · rw [hwhash]
      exact findPres_trans ev1.fp ev2.fp
    · rw [hwnext]
      omega
    · intro x hx
      have hxb : x ≠ b := by omega
      rw [writeObj_lookup_ne hxb]
      have h2 := ev2.frame x (by rw [hreg_next]; omega)
      rw [h2]
      exact ev1.frame x hx
    · intro p hp
      rw [hwhash] at hp
      rcases ev2.hnew p hp with h | h
      · rcases List.mem_cons.1 h with h | h
        · right; rw [h]
        · exact Or.inl h
      · right
        rw [hreg_next] at h
        omega
    · exact le_trans ev1.smono ev2.smono

/-- The soundness contract of a recursive clone call: it preserves the
state invariant and completed-entry matching, relates input to output, and
evolves the state. -/
def CloneSound (h0 : Heap) (D : List Nat)
    (f : CState → HVal → Option (HVal × CState)) : Prop :=
  ∀ P st v w st', StInv h0 D st → HashOK st P → HVal.refsInB D v = true →
    f st v = some (w, st') →
    StInv h0 D st' ∧ HashOK st' P ∧ RELp st'.hash v w ∧ Evolve st st'

theorem cloneListF_sound {h0 : Heap} {D : List Nat}
    {f : CState → HVal → Option (HVal × CState)} (Hf : CloneSound h0 D f)
    (P : List Nat) :
    ∀ (xs : List HVal) (st : CState) (ys : List HVal) (st' : CState),
      StInv h0 D st → HashOK st P →
      (∀ x ∈ xs, HVal.refsInB D x = true) →
      cloneListF f st xs = some (ys, st') →
      StInv h0 D st' ∧ HashOK st' P ∧
        List.Forall₂ (RELp st'.hash) xs ys ∧ Evolve st st' := by
  intro xs
  induction xs with
  | nil =>
    intro st ys st' inv hok _ hrun
    simp only [cloneListF, Option.some.injEq, Prod.mk.injEq] at hrun
    obtain ⟨rfl, rfl⟩ := hrun
    exact ⟨inv, hok, List.Forall₂.nil, evolve_refl st⟩
  | cons x xs ih =>
    intro st ys st' inv hok hrefs hrun
    simp only [cloneListF] at hrun
    cases hfx : f st x with
    | none => simp only [hfx] at hrun; simp at hrun
    | some p =>
      obtain ⟨y, st1⟩ := p
      simp only [hfx] at hrun
      cases hrest : cloneListF f st1 xs with
      | none => simp only [hrest] at hrun; simp at hrun
      | some q =>
        obtain ⟨ys2, st2⟩ := q
        simp only [hrest] at hrun
        simp only [Option.some.injEq, Prod.mk.injEq] at hrun
        obtain ⟨rfl, rfl⟩ := hrun
        obtain ⟨inv1, hok1, hrel1, ev1⟩ :=
          Hf P st x y st1 inv hok (hrefs x (by simp)) hfx
        obtain ⟨inv2, hok2, hrel2, ev2⟩ := ih st1 ys2 st2 inv1 hok1
          (fun z hz => hrefs z (List.mem_cons_of_mem _ hz)) hrest
        exact ⟨inv2, hok2,
          List.Forall₂.cons (RELp_mono ev2.fp hrel1) hrel2,
          evolve_trans ev1 ev2⟩

theorem clonePairsF_sound {h0 : Heap} {D : List Nat}
    {f : CState → HVal → Option (HVal × CState)} (Hf : CloneSound h0 D f)
    (P : List Nat) :
    ∀ (ps : List (HVal × HVal)) (st : CState) (qs : List (HVal × HVal))
      (st' : CState),
      StInv h0 D st → HashOK st P →
      (∀ p ∈ ps, HVal.refsInB D p.1 = true ∧ HVal.refsInB D p.2 = true) →
      clonePairsF f st ps = some (qs, st') →
      StInv h0 D st' ∧ HashOK st' P ∧
        List.Forall₂ (fun p q => RELk st'.hash p.1 q.1 ∧ RELp st'.hash p.2 q.2)
          ps qs ∧ Evolve st st' := by
  intro ps
  induction ps with
  | nil =>
    intro st qs st' inv hok _ hrun
    simp only [clonePairsF, Option.some.injEq, Prod.mk.injEq] at hrun
    obtain ⟨rfl, rfl⟩ := hrun
    exact ⟨inv, hok, List.Forall₂.nil, evolve_refl st⟩
  | cons p ps ih =>
    obtain ⟨k, v⟩ := p
    intro st qs st' inv hok hrefs hrun
    simp only [clonePairsF] at hrun
    have hkstep :
        ∃ k2 st1, (if k.isPrimitive then some (k, st) else f st k) = some (k2, st1) ∧
          StInv h0 D st1 ∧ HashOK st1 P ∧ RELk st1.hash k k2 ∧ Evolve st st1 := by
      cases k with
      | prim pk =>
        exact ⟨HVal.prim pk, st, by simp [HVal.isPrimitive], inv, hok, rfl,
          evolve_refl st⟩
      | ref ak =>
        cases hfk : f st (HVal.ref ak) with
        | none =>
          simp [HVal.isPrimitive, hfk] at hrun
        | some pr =>
          obtain ⟨k2, st1⟩ := pr
          obtain ⟨inv1, hok1, hrel1, ev1⟩ := Hf P st (HVal.ref ak) k2 st1 inv hok
            (hrefs (HVal.ref ak, v) (by simp)).1 hfk
          exact ⟨k2, st1, by simp [HVal.isPrimitive, hfk], inv1, hok1, hrel1, ev1⟩
    obtain ⟨k2, st1, hkeq, inv1, hok1, hrelk, ev1⟩ := hkstep
    simp only [hkeq] at hrun
    cases hfv : f st1 v with
    | none => simp only [hfv] at hrun; simp at hrun
    | some pv =>
      obtain ⟨v2, st2⟩ := pv
      simp only [hfv] at hrun
      obtain ⟨inv2, hok2, hrelv, ev2⟩ := Hf P st1 v v2 st2 inv1 hok1
        (hrefs (k, v) (by simp)).2 hfv
      cases hrest : clonePairsF f st2 ps with
      | none => simp only [hrest] at hrun; simp at hrun
      | some q =>
        obtain ⟨qs2, st3⟩ := q
        simp only [hrest] at hrun
        simp only [Option.some.injEq, Prod.mk.injEq] at hrun
        obtain ⟨rfl, rfl⟩ := hrun
        obtain ⟨inv3, hok3, hrel3, ev3⟩ := ih st2 qs2 st3 inv2 hok2
          (fun z hz => hrefs z (List.mem_cons_of_mem _ hz)) hrest
        refine ⟨inv3, hok3, ?_, evolve_trans ev1 (evolve_trans ev2 ev3)⟩
        exact List.Forall₂.cons
          ⟨RELk_mono (findPres_trans ev2.fp ev3.fp) hrelk,
            RELp_mono ev3.fp hrelv⟩ hrel3

theorem cloneEntriesF_sound {h0 : Heap} {D : List Nat}
    {f : CState → HVal → Option (HVal × CState)} (Hf : CloneSound h0 D f)
    (P : List Nat) :
    ∀ (es : List (String × HVal)) (st : CState) (fs : List (String × HVal))
      (st' : CState),
      StInv h0 D st → HashOK st P →
      (∀ p ∈ es, HVal.refsInB D p.2 = true) →
      cloneEntriesF f st es = some (fs, st') →
      StInv h0 D st' ∧ HashOK st' P ∧
        List.Forall₂ (fun p q => p.1 = q.1 ∧ RELp st'.hash p.2 q.2) es fs ∧
        Evolve st st' := by
  intro es
  induction es with
  | nil =>
    intro st fs st' inv hok _ hrun
    simp only [cloneEntriesF, Option.some.injEq, Prod.mk.injEq] at hrun
    obtain ⟨rfl, rfl⟩ := hrun
    exact ⟨inv, hok, List.Forall₂.nil, evolve_refl st⟩
  | cons e es ih =>
    obtain ⟨k, v⟩ := e
    intro st fs st' inv hok hrefs hrun
    simp only [cloneEntriesF] at hrun
    cases hfv : f st v with
    | none => simp only [hfv] at hrun; simp at hrun
    | some pv =>
      obtain ⟨v2, st1⟩ := pv
      simp only [hfv] at hrun
      cases hrest : cloneEntriesF f st1 es with
      | none => simp only [hrest] at hrun; simp at hrun
      | some q =>
        obtain ⟨fs2, st2⟩ := q
        simp only [hrest] at hrun
        simp only [Option.some.injEq, Prod.mk.injEq] at hrun
        obtain ⟨rfl, rfl⟩ := hrun
        obtain ⟨inv1, hok1, hrel1, ev1⟩ := Hf P st v v2 st1 inv hok
          (hrefs (k, v) (by simp)) hfv
        obtain ⟨inv2, hok2, hrel2, ev2⟩ := ih st1 fs2 st2 inv1 hok1
          (fun z hz => hrefs z (List.mem_cons_of_mem _ hz)) hrest
        exact ⟨inv2, hok2,
          List.Forall₂.cons ⟨rfl, RELp_mono ev2.fp hrel1⟩ hrel2,
          evolve_trans ev1 ev2⟩

theorem cloneSymsF_sound {h0 : Heap} {D : List Nat}
    {f : CState → HVal → Option (HVal × CState)} (Hf : CloneSound h0 D f)
    (P : List Nat) :
    ∀ (es : List ((Nat × Option String) × HVal)) (st : CState)
      (fs : List ((Nat × Option String) × HVal)) (st' : CState),
      StInv h0 D st → HashOK st P →
      (∀ p ∈ es, HVal.refsInB D p.2 = true) →
      cloneSymsF f st es = some (fs, st') →
      StInv h0 D st' ∧ HashOK st' P ∧
        List.Forall₂ (fun p q => p.1 = q.1 ∧ RELp st'.hash p.2 q.2) es fs ∧
        Evolve st st' := by
  intro es
  induction es with
  | nil =>
    intro st fs st' inv hok _ hrun
    simp only [cloneSymsF, Option.some.injEq, Prod.mk.injEq] at hrun
    obtain ⟨rfl, rfl⟩ := hrun
    exact ⟨inv, hok, List.Forall₂.nil, evolve_refl st⟩
  | cons e es ih =>
    obtain ⟨k, v⟩ := e
    intro st fs st' inv hok hrefs hrun
    simp only [cloneSymsF] at hrun
    cases hfv : f st v with
    | none => simp only [hfv] at hrun; simp at hrun
    | some pv =>
      obtain ⟨v2, st1⟩ := pv
      simp only [hfv] at hrun
      cases hrest : cloneSymsF f st1 es with
      | none => simp only [hrest] at hrun; simp at hrun
      | some q =>
        obtain ⟨fs2, st2⟩ := q
        simp only [hrest] at hrun
        simp only [Option.some.injEq, Prod.mk.injEq] at hrun
        obtain ⟨rfl, rfl⟩ := hrun
        obtain ⟨inv1, hok1, hrel1, ev1⟩ := Hf P st v v2 st1 inv hok
          (hrefs (k, v) (by simp)) hfv
        obtain ⟨inv2, hok2, hrel2, ev2⟩ := ih st1 fs2 st2 inv1 hok1
          (fun z hz => hrefs z (List.mem_cons_of_mem _ hz)) hrest
        exact ⟨inv2, hok2,
          List.Forall₂.cons ⟨rfl, RELp_mono ev2.fp hrel1⟩ hrel2,
          evolve_trans ev1 ev2⟩

theorem refsInB_setO {D : List Nat} {xs : List HVal}
    (h : HObj.refsInB D (HObj.setO xs) = true) :
    ∀ x ∈ xs, HVal.refsInB D x = true := by
  simpa [HObj.refsInB, HObj.subvalues, List.all_eq_true] using h

theorem refsInB_arrO {D : List Nat} {xs : List HVal}
    (h : HObj.refsInB D (HObj.arrO xs) = true) :
    ∀ x ∈ xs, HVal.refsInB D x = true := by
  simpa [HObj.refsInB, HObj.subvalues, List.all_eq_true] using h

theorem refsInB_mapO {D : List Nat} {ps : List (HVal × HVal)}
    (h : HObj.refsInB D (HObj.mapO ps) = true) :
    ∀ p ∈ ps, HVal.refsInB D p.1 = true ∧ HVal.refsInB D p.2 = true := by
  simp only [HObj.refsInB, HObj.subvalues, List.all_append, Bool.and_eq_true,
    List.all_eq_true] at h
  intro p hp
  exact ⟨h.1 p.1 (List.mem_map.2 ⟨p, hp, rfl⟩),
    h.2 p.2 (List.mem_map.2 ⟨p, hp, rfl⟩)⟩

theorem refsInB_objO {D : List Nat} {ss : List (String × HVal)}
    {sys : List ((Nat × Option String) × HVal)}
    (h : HObj.refsInB D (HObj.objO ss sys) = true) :
    (∀ p ∈ ss, HVal.refsInB D p.2 = true) ∧
      (∀ p ∈ sys, HVal.refsInB D p.2 = true) := by
  simp only [HObj.refsInB, HObj.subvalues, List.all_append, Bool.and_eq_true,
    List.all_eq_true] at h
  exact ⟨fun p hp => h.1 p.2 (List.mem_map.2 ⟨p, hp, rfl⟩),
    fun p hp => h.2 p.2 (List.mem_map.2 ⟨p, hp, rfl⟩)⟩

/-- Soundness of `deepClone` at every fuel: a successful run preserves the
state invariant, keeps every completed hash entry matched with its clone,
relates input to output by the clone relation, evolves the state (the
source heap below the old frontier is untouched, and the hash only gains
fresh clone addresses). -/
theorem cloneV_sound {h0 : Heap} {D : List Nat}
    (hcl : closedOn h0 D = true) :
    ∀ fuel, CloneSound h0 D (cloneV fuel) := by
  intro fuel
  induction fuel with
  | zero =>
    intro P st v w st' _ _ _ hrun
    simp [cloneV] at hrun
  | succ n ih =>
    intro P st v w st' inv hok hrefs hrun
    simp only [cloneV] at hrun
    cases v with
    | prim p =>
      cases p <;>
        simp only [cloneStep, Option.some.injEq, Prod.mk.injEq] at hrun
      case pSym i d =>
        obtain ⟨rfl, rfl⟩ := hrun
        exact ⟨⟨inv.frameD, inv.dbnd, inv.wfh, inv.hdom, inv.hrngLt,
            inv.hrngDom, inv.hrngFresh, inv.hkeysNodup, inv.hrngNodup⟩,
          hok, ⟨st.symCtr, rfl⟩,
          findPres_refl _, le_rfl, fun _ _ => rfl,
          fun p hp => Or.inl hp, Nat.le_succ _⟩
      all_goals
        obtain ⟨rfl, rfl⟩ := hrun
      all_goals
        exact ⟨inv, hok, rfl, evolve_refl st⟩
    | ref a =>
      simp only [cloneStep] at hrun
      cases hhf : hashFind st.hash a with
      | some b =>
        simp only [hhf, Option.some.injEq, Prod.mk.injEq] at hrun
        obtain ⟨rfl, rfl⟩ := hrun
        exact ⟨inv, hok, ⟨b, rfl, hhf⟩, evolve_refl st⟩
      | none =>
        simp only [hhf] at hrun
        have haD : a ∈ D := refsInB_ref.1 hrefs
        obtain ⟨o, ho, horefs⟩ := closedOn_spec hcl haD
        have hlook : st.heap.lookup a = some o := by
          rw [inv.frameD a haD]; exact ho
        simp only [hlook] at hrun
        cases o with
        | setO xs =>
          cases hlist : cloneListF (cloneV n) (regAlloc st a (HObj.setO [])) xs with
          | none =>
            simp only [hlist] at hrun
            exact Option.noConfusion hrun
          | some q =>
            obtain ⟨ys, st2⟩ := q
            simp only [hlist, Option.some.injEq, Prod.mk.injEq] at hrun
            obtain ⟨rfl, rfl⟩ := hrun
            obtain ⟨inv1, ev1, hoktr, hfind1⟩ :=
              regAlloc_sound (HObj.setO []) inv haD hhf
            obtain ⟨inv2, hok2, hrel2, ev2⟩ :=
              cloneListF_sound ih (a :: P) xs _ ys st2 inv1 (hoktr P hok)
                (refsInB_setO horefs) hlist
            exact finish_container (HObj.setO []) inv haD hhf hlook inv2 hok2
              ev2 hrel2
        | arrO xs =>
          cases hlist : cloneListF (cloneV n) (regAlloc st a (HObj.arrO [])) xs with
          | none =>
            simp only [hlist] at hrun
            exact Option.noConfusion hrun
          | some q =>
            obtain ⟨ys, st2⟩ := q
            simp only [hlist, Option.some.injEq, Prod.mk.injEq] at hrun
            obtain ⟨rfl, rfl⟩ := hrun
            obtain ⟨inv1, ev1, hoktr, hfind1⟩ :=
              regAlloc_sound (HObj.arrO []) inv haD hhf
            obtain ⟨inv2, hok2, hrel2, ev2⟩ :=
              cloneListF_sound ih (a :: P) xs _ ys st2 inv1 (hoktr P hok)
                (refsInB_arrO horefs) hlist
            exact finish_container (HObj.arrO []) inv haD hhf hlook inv2 hok2
              ev2 hrel2
        | mapO ps =>
          cases hlist : clonePairsF (cloneV n) (regAlloc st a (HObj.mapO [])) ps with
          | none =>
            simp only [hlist] at hrun
            exact Option.noConfusion hrun
          | some q =>
            obtain ⟨qs, st2⟩ := q
            simp only [hlist, Option.some.injEq, Prod.mk.injEq] at hrun
            obtain ⟨rfl, rfl⟩ := hrun
            obtain ⟨inv1, ev1, hoktr, hfind1⟩ :=
              regAlloc_sound (HObj.mapO []) inv haD hhf
            obtain ⟨inv2, hok2, hrel2, ev2⟩ :=
              clonePairsF_sound ih (a :: P) ps _ qs st2 inv1 (hoktr P hok)
                (refsInB_mapO horefs) hlist
            exact finish_container (HObj.mapO []) inv haD hhf hlook inv2 hok2
              ev2 hrel2
        | objO ss sys =>
          cases hents : cloneEntriesF (cloneV n) (regAlloc st a (HObj.objO [] [])) ss with
          | none =>
            simp only [hents] at hrun
            exact Option.noConfusion hrun
          | some q =>
            obtain ⟨ss2, st2⟩ := q
            simp only [hents] at hrun
            cases hsyms : cloneSymsF (cloneV n) st2 sys with
            | none =>
              simp only [hsyms] at hrun
              exact Option.noConfusion hrun
            | some q2 =>
              obtain ⟨sys2, st3⟩ := q2
              simp only [hsyms, Option.some.injEq, Prod.mk.injEq] at hrun
              obtain ⟨rfl, rfl⟩ := hrun
              obtain ⟨inv1, ev1, hoktr, hfind1⟩ :=
                regAlloc_sound (HObj.objO [] []) inv haD hhf
              obtain ⟨inv2, hok2, hrel2, ev2⟩ :=
                cloneEntriesF_sound ih (a :: P) ss _ ss2 st2 inv1 (hoktr P hok)
                  (refsInB_objO horefs).1 hents
              obtain ⟨inv3, hok3, hrel3, ev3⟩ :=
                cloneSymsF_sound ih (a :: P) sys st2 sys2 st3 inv2 hok2
                  (refsInB_objO horefs).2 hsyms
              have hrelo : ObjRel st3.hash (HObj.objO ss sys)
                  (HObj.objO ss2 sys2) :=
                ⟨hrel2.imp fun p q hx => ⟨hx.1, RELp_mono ev3.fp hx.2⟩, hrel3⟩
              exact finish_container (HObj.objO [] []) inv haD hhf hlook inv3
                hok3 (evolve_trans ev2 ev3) hrelo

/-- Number of closed addresses not yet registered in the hash: the
termination measure of a clone run. -/
def hashMeasure (D : List Nat) (hs : List (Nat × Nat)) : Nat :=
  (D.filter (fun a => (hashFind hs a).isNone)).length

theorem filter_length_le_of_imp {D : List Nat} {p q : Nat → Bool}
    (h : ∀ a ∈ D, p a = true → q a = true) :
    (D.filter p).length ≤ (D.filter q).length := by
  induction D with
  | nil => simp
  | cons x rest ih =>
    have ihr : (rest.filter p).length ≤ (rest.filter q).length :=
      ih fun a ha => h a (List.mem_cons_of_mem _ ha)
    by_cases hp : p x = true
    · have hq := h x (by simp) hp
      simp [List.filter_cons, hp, hq]
      omega
    · simp only [List.filter_cons, Bool.not_eq_true] at hp ⊢
      rw [hp]
      simp only [Bool.false_eq_true, if_false]
      cases hq : q x <;> simp <;> omega

theorem hashMeasure_mono {D : List Nat} {hs hs2 : List (Nat × Nat)}
    (hfp : FindPres hs hs2) : hashMeasure D hs2 ≤ hashMeasure D hs := by
  apply filter_length_le_of_imp
  intro a _ hnone
  cases h1 : hashFind hs a with
  | none => simp [h1]
  | some b =>
    rw [hfp a b h1] at hnone
    simp at hnone

theorem hashMeasure_register {D : List Nat} {hs : List (Nat × Nat)}
    {a b : Nat} (haD : a ∈ D) (hnd : D.Nodup)
    (hnone : hashFind hs a = none) :
    hashMeasure D ((a, b) :: hs) < hashMeasure D hs := by
  induction D with
  | nil => simp at haD
  | cons x rest ih =>
    rw [List.nodup_cons] at hnd
    rcases List.mem_cons.1 haD with rfl | hmem
    · have hxnew : hashFind ((a, b) :: hs) a = some b := by simp [hashFind]
      have heq : rest.filter (fun z => (hashFind ((a, b) :: hs) z).isNone) =
          rest.filter (fun z => (hashFind hs z).isNone) := by
        apply List.filter_congr
        intro z hz
        have hza : z ≠ a := fun he => hnd.1 (he ▸ hz)
        rw [hashFind_cons_ne hza]
      simp only [hashMeasure, List.filter_cons, hxnew, hnone]
      simp only [Option.isNone_some, Bool.false_eq_true, if_false,
        Option.isNone_none, if_true, heq, List.length_cons]
      omega
    · have ihr := ih hmem hnd.2
      simp only [hashMeasure, List.filter_cons]
      by_cases hxa : x = a
      · subst hxa
        exfalso
        exact hnd.1 hmem
      · rw [hashFind_cons_ne hxa]
        simp only [hashMeasure] at ihr
        cases hfx : (hashFind hs x).isNone <;> simp <;> omega

/-- The pending-set instantiation that makes `HashOK` vacuous. -/
theorem hashOK_trivial (st : CState) : HashOK st (st.hash.map Prod.fst) := by
  intro p hp hnot
  exact absurd (List.mem_map.2 ⟨p, hp, rfl⟩) hnot

theorem cloneListF_total {h0 : Heap} {D : List Nat}
    {f : CState → HVal → Option (HVal × CState)} (Hf : CloneSound h0 D f)
    (N : Nat)
    (Hft : ∀ st v, StInv h0 D st → HVal.refsInB D v = true →
      hashMeasure D st.hash + 1 ≤ N → (f st v).isSome) :
    ∀ (xs : List HVal) (st : CState), StInv h0 D st →
      (∀ x ∈ xs, HVal.refsInB D x = true) →
      hashMeasure D st.hash + 1 ≤ N →
      (cloneListF f st xs).isSome := by
  intro xs
  induction xs with
  | nil => intro st _ _ _; simp [cloneListF]
  | cons x xs ih =>
    intro st inv hrefs hm
    have h1 := Hft st x inv (hrefs x (by simp)) hm
    obtain ⟨p, hp⟩ := Option.isSome_iff_exists.1 h1
    obtain ⟨y, st1⟩ := p
    obtain ⟨inv1, _, _, ev1⟩ := Hf (st.hash.map Prod.fst) st x y st1 inv
      (hashOK_trivial st) (hrefs x (by simp)) hp
    have hm1 : hashMeasure D st1.hash + 1 ≤ N :=
      le_trans (by have := hashMeasure_mono (D := D) ev1.fp; omega) hm
    have h2 := ih st1 inv1 (fun z hz => hrefs z (List.mem_cons_of_mem _ hz)) hm1
    obtain ⟨q, hq⟩ := Option.isSome_iff_exists.1 h2
    simp [cloneListF, hp, hq]

theorem clonePairsF_total {h0 : Heap} {D : List Nat}
    {f : CState → HVal → Option (HVal × CState)} (Hf : CloneSound h0 D f)
    (N : Nat)
    (Hft : ∀ st v, StInv h0 D st → HVal.refsInB D v = true →
      hashMeasure D st.hash + 1 ≤ N → (f st v).isSome) :
    ∀ (ps : List (HVal × HVal)) (st : CState), StInv h0 D st →
      (∀ p ∈ ps, HVal.refsInB D p.1 = true ∧ HVal.refsInB D p.2 = true) →
      hashMeasure D st.hash + 1 ≤ N →
      (clonePairsF f st ps).isSome := by
  intro ps
  induction ps with
  | nil => intro st _ _ _; simp [clonePairsF]
  | cons p ps ih =>
    obtain ⟨k, v⟩ := p
    intro st inv hrefs hm
    have hkstep : ∃ k2 st1,
        (if k.isPrimitive then some (k, st) else f st k) = some (k2, st1) ∧
          StInv h0 D st1 ∧ hashMeasure D st1.hash + 1 ≤ N := by
      cases k with
      | prim pk => exact ⟨HVal.prim pk, st, by simp [HVal.isPrimitive], inv, hm⟩
      | ref ak =>
        have h1 := Hft st (HVal.ref ak) inv (hrefs (HVal.ref ak, v) (by simp)).1 hm
        obtain ⟨pr, hpr⟩ := Option.isSome_iff_exists.1 h1
        obtain ⟨k2, st1⟩ := pr
        obtain ⟨inv1, _, _, ev1⟩ := Hf (st.hash.map Prod.fst) st (HVal.ref ak)
          k2 st1 inv (hashOK_trivial st) (hrefs (HVal.ref ak, v) (by simp)).1 hpr
        refine ⟨k2, st1, by simp [HVal.isPrimitive, hpr], inv1, ?_⟩
        exact le_trans (by have := hashMeasure_mono (D := D) ev1.fp; omega) hm
    obtain ⟨k2, st1, hkeq, inv1, hm1⟩ := hkstep
    have h2 := Hft st1 v inv1 (hrefs (k, v) (by simp)).2 hm1
    obtain ⟨pv, hpv⟩ := Option.isSome_iff_exists.1 h2
    obtain ⟨v2, st2⟩ := pv
    obtain ⟨inv2, _, _, ev2⟩ := Hf (st1.hash.map Prod.fst) st1 v v2 st2 inv1
      (hashOK_trivial st1) (hrefs (k, v) (by simp)).2 hpv
    have hm2 : hashMeasure D st2.hash + 1 ≤ N :=
      le_trans (by have := hashMeasure_mono (D := D) ev2.fp; omega) hm1
    have h3 := ih st2 inv2 (fun z hz => hrefs z (List.mem_cons_of_mem _ hz)) hm2
    obtain ⟨q, hq⟩ := Option.isSome_iff_exists.1 h3
    simp [clonePairsF, hkeq, hpv, hq]

theorem cloneEntriesF_total {h0 : Heap} {D : List Nat}
    {f : CState → HVal → Option (HVal × CState)} (Hf : CloneSound h0 D f)
    (N : Nat)
    (Hft : ∀ st v, StInv h0 D st → HVal.refsInB D v = true →
      hashMeasure D st.hash + 1 ≤ N → (f st v).isSome) :
    ∀ (es : List (String × HVal)) (st : CState), StInv h0 D st →
      (∀ p ∈ es, HVal.refsInB D p.2 = true) →
      hashMeasure D st.hash + 1 ≤ N →
      (cloneEntriesF f st es).isSome := by
  intro es
  induction es with
  | nil => intro st _ _ _; simp [cloneEntriesF]
  | cons e es ih =>
    obtain ⟨k, v⟩ := e
    intro st inv hrefs hm
    have h1 := Hft st v inv (hrefs (k, v) (by simp)) hm
    obtain ⟨p, hp⟩ := Option.isSome_iff_exists.1 h1
    obtain ⟨v2, st1⟩ := p
    obtain ⟨inv1, _, _, ev1⟩ := Hf (st.hash.map Prod.fst) st v v2 st1 inv
      (hashOK_trivial st) (hrefs (k, v) (by simp)) hp
    have hm1 : hashMeasure D st1.hash + 1 ≤ N :=
      le_trans (by have := hashMeasure_mono (D := D) ev1.fp; omega) hm
    have h2 := ih st1 inv1 (fun z hz => hrefs z (List.mem_cons_of_mem _ hz)) hm1
    obtain ⟨q, hq⟩ := Option.isSome_iff_exists.1 h2
    simp [cloneEntriesF, hp, hq]

theorem cloneSymsF_total {h0 : Heap} {D : List Nat}
    {f : CState → HVal → Option (HVal × CState)} (Hf : CloneSound h0 D f)
    (N : Nat)
    (Hft : ∀ st v, StInv h0 D st → HVal.refsInB D v = true →
      hashMeasure D st.hash + 1 ≤ N → (f st v).isSome) :
    ∀ (es : List ((Nat × Option String) × HVal)) (st : CState), StInv h0 D st →
      (∀ p ∈ es, HVal.refsInB D p.2 = true) →
      hashMeasure D st.hash + 1 ≤ N →
      (cloneSymsF f st es).isSome := by
  intro es
  induction es with
  | nil => intro st _ _ _; simp [cloneSymsF]
  | cons e es ih =>
    obtain ⟨k, v⟩ := e
    intro st inv hrefs hm
    have h1 := Hft st v inv (hrefs (k, v) (by simp)) hm
    obtain ⟨p, hp⟩ := Option.isSome_iff_exists.1 h1
    obtain ⟨v2, st1⟩ := p
    obtain ⟨inv1, _, _, ev1⟩ := Hf (st.hash.map Prod.fst) st v v2 st1 inv
      (hashOK_trivial st) (hrefs (k, v) (by simp)) hp
    have hm1 : hashMeasure D st1.hash + 1 ≤ N :=
      le_trans (by have := hashMeasure_mono (D := D) ev1.fp; omega) hm
    have h2 := ih st1 inv1 (fun z hz => hrefs z (List.mem_cons_of_mem _ hz)) hm1
    obtain ⟨q, hq⟩ := Option.isSome_iff_exists.1 h2
    simp [cloneSymsF, hp, hq]

/-- Termination of a clone run: any fuel exceeding the number of not yet
registered closed addresses succeeds. -/
theorem cloneV_total {h0 : Heap} {D : List Nat}
    (hcl : closedOn h0 D = true) (hnd : D.Nodup) :
    ∀ (fuel : Nat) (st : CState) (v : HVal), StInv h0 D st →
      HVal.refsInB D v = true →
      hashMeasure D st.hash + 1 ≤ fuel → (cloneV fuel st v).isSome := by
  intro fuel
  induction fuel with
  | zero => intro st v _ _ hm; omega
  | succ n ih =>
    intro st v inv hrefs hm
    cases v with
    | prim p => cases p <;> simp [cloneV, cloneStep]
    | ref a =>
      cases hhf : hashFind st.hash a with
      | some b => simp [cloneV, cloneStep, hhf]
      | none =>
        have haD : a ∈ D := refsInB_ref.1 hrefs
        obtain ⟨o, ho, horefs⟩ := closedOn_spec hcl haD
        have hlook : st.heap.lookup a = some o := by
          rw [inv.frameD a haD]; exact ho
        have hmlt : hashMeasure D st.hash ≥ 1 := by
          have : a ∈ D.filter (fun z => (hashFind st.hash z).isNone) :=
            List.mem_filter.2 ⟨haD, by simp [hhf]⟩
          have := List.length_pos.2 (List.ne_nil_of_mem this)
          simp only [hashMeasure]
          omega
        cases o with
        | setO xs =>
          obtain ⟨inv1, ev1, _, _⟩ := regAlloc_sound (HObj.setO []) inv haD hhf
          have hm1 : hashMeasure D (regAlloc st a (HObj.setO [])).hash + 1 ≤ n := by
            have := hashMeasure_register (b := st.heap.next) haD hnd hhf
            simp only [regAlloc] at this ⊢
            omega
          have hl := cloneListF_total (cloneV_sound hcl n) n (fun st2 v2 => ih st2 v2)
            xs (regAlloc st a (HObj.setO [])) inv1 (refsInB_setO horefs) hm1
          obtain ⟨q, hq⟩ := Option.isSome_iff_exists.1 hl
          obtain ⟨ys, st2⟩ := q
          simp [cloneV, cloneStep, hhf, hlook, hq]
        | arrO xs =>
          obtain ⟨inv1, ev1, _, _⟩ := regAlloc_sound (HObj.arrO []) inv haD hhf
          have hm1 : hashMeasure D (regAlloc st a (HObj.arrO [])).hash + 1 ≤ n := by
            have := hashMeasure_register (b := st.heap.next) haD hnd hhf
            simp only [regAlloc] at this ⊢
            omega
          have hl := cloneListF_total (cloneV_sound hcl n) n (fun st2 v2 => ih st2 v2)
            xs (regAlloc st a (HObj.arrO [])) inv1 (refsInB_arrO horefs) hm1
          obtain ⟨q, hq⟩ := Option.isSome_iff_exists.1 hl
          obtain ⟨ys, st2⟩ := q
          simp [cloneV, cloneStep, hhf, hlook, hq]
        | mapO ps =>
          obtain ⟨inv1, ev1, _, _⟩ := regAlloc_sound (HObj.mapO []) inv haD hhf
          have hm1 : hashMeasure D (regAlloc st a (HObj.mapO [])).hash + 1 ≤ n := by
            have := hashMeasure_register (b := st.heap.next) haD hnd hhf
            simp only [regAlloc] at this ⊢
            omega
          have hl := clonePairsF_total (cloneV_sound hcl n) n (fun st2 v2 => ih st2 v2)
            ps (regAlloc st a (HObj.mapO [])) inv1 (refsInB_mapO horefs) hm1
          obtain ⟨q, hq⟩ := Option.isSome_iff_exists.1 hl
          obtain ⟨qs, st2⟩ := q
          simp [cloneV, cloneStep, hhf, hlook, hq]
        | objO ss sys =>
          obtain ⟨inv1, ev1, _, _⟩ := regAlloc_sound (HObj.objO [] []) inv haD hhf
          have hm1 : hashMeasure D (regAlloc st a (HObj.objO [] [])).hash + 1 ≤ n := by
            have := hashMeasure_register (b := st.heap.next) haD hnd hhf
            simp only [regAlloc] at this ⊢
            omega
          have hl := cloneEntriesF_total (cloneV_sound hcl n) n
            (fun st2 v2 => ih st2 v2) ss (regAlloc st a (HObj.objO [] [])) inv1
            (refsInB_objO horefs).1 hm1
          obtain ⟨q, hq⟩ := Option.isSome_iff_exists.1 hl
          obtain ⟨ss2, st2⟩ := q
          obtain ⟨inv2, _, _, ev2⟩ := cloneEntriesF_sound (cloneV_sound hcl n)
            ((regAlloc st a (HObj.objO [] [])).hash.map Prod.fst) ss
            (regAlloc st a (HObj.objO [] [])) ss2 st2 inv1 (hashOK_trivial _)
            (refsInB_objO horefs).1 hq
          have hm2 : hashMeasure D st2.hash + 1 ≤ n :=
            le_trans (by have := hashMeasure_mono (D := D) ev2.fp; omega) hm1
          have hl2 := cloneSymsF_total (cloneV_sound hcl n) n
            (fun st3 v3 => ih st3 v3) sys st2 inv2 (refsInB_objO horefs).2 hm2
          obtain ⟨q2, hq2⟩ := Option.isSome_iff_exists.1 hl2
          obtain ⟨sys2, st3⟩ := q2
          simp [cloneV, cloneStep, hhf, hlook, hq, hq2]

/- ============ Deep equality and reachability for the cloner ============ -/

def dEqListF (f : HVal → HVal → Bool) : List HVal → List HVal → Bool
  | [], [] => true
  | x :: xs, y :: ys => f x y && dEqListF f xs ys
  | _, _ => false

def dEqPairsF (f : HVal → HVal → Bool) :
    List (HVal × HVal) → List (HVal × HVal) → Bool
  | [], [] => true
  | (k, v) :: ps, (k2, v2) :: qs => f k k2 && f v v2 && dEqPairsF f ps qs
  | _, _ => false

def dEqEntriesF (f : HVal → HVal → Bool) :
    List (String × HVal) → List (String × HVal) → Bool
  | [], [] => true
  | (k, v) :: es, (k2, v2) :: fs =>
    decide (k = k2) && f v v2 && dEqEntriesF f es fs
  | _, _ => false

def dEqSymsF (f : HVal → HVal → Bool) :
    List ((Nat × Option String) × HVal) →
      List ((Nat × Option String) × HVal) → Bool
  | [], [] => true
  | (k, v) :: es, (k2, v2) :: fs =>
    decide (k = k2) && f v v2 && dEqSymsF f es fs
  | _, _ => false

/-- Same container kind, property keys equal, contents pointwise `f`. -/
def dEqObj (f : HVal → HVal → Bool) : HObj → HObj → Bool
  | HObj.objO ss sys, HObj.objO ss2 sys2 =>
    dEqEntriesF f ss ss2 && dEqSymsF f sys sys2
  | HObj.arrO xs, HObj.arrO ys => dEqListF f xs ys
  | HObj.mapO ps, HObj.mapO qs => dEqPairsF f ps qs
  | HObj.setO xs, HObj.setO ys => dEqListF f xs ys
  | _, _ => false

/-- One level of deep structural equality: primitives compared by value
except symbols, which are compared by description only (a clone recreates
symbols, preserving descriptions but not identities); references compared
by unfolding the objects they denote. -/
def dEqStep (f : HVal → HVal → Bool) (h : Heap) : HVal → HVal → Bool
  | HVal.prim (Prim.pSym _ d1), HVal.prim (Prim.pSym _ d2) => decide (d1 = d2)
  | HVal.prim p1, HVal.prim p2 => decide (p1 = p2)
  | HVal.ref a, HVal.ref b =>
    match h.lookup a, h.lookup b with
    | some o1, some o2 => dEqObj f o1 o2
    | _, _ => false
  | _, _ => false

/-- Fuel-indexed deep structural equality: values that are deep-equal at
every fuel are structurally equal — for acyclic values this is ordinary
tree equality of their unfoldings, and it is the natural bisimulation
notion for cyclic ones. -/
def dEqV : Nat → Heap → HVal → HVal → Bool
  | 0, _, _, _ => true
  | Nat.succ k, h, v, w => dEqStep (dEqV k h) h v w

theorem dEqV_prim_refl (p : Prim) : ∀ (k : Nat) (h : Heap),
    dEqV k h (HVal.prim p) (HVal.prim p) = true := by
  intro k h
  cases k with
  | zero => rfl
  | succ k => cases p <;> simp [dEqV, dEqStep]

theorem dEqListF_of_forall₂ {f : HVal → HVal → Bool} {xs ys : List HVal}
    (h : List.Forall₂ (fun x y => f x y = true) xs ys) :
    dEqListF f xs ys = true := by
  induction h with
  | nil => rfl
  | cons hxy _ ih => simp [dEqListF, hxy, ih]

theorem dEqPairsF_of_forall₂ {f : HVal → HVal → Bool} :
    ∀ {ps qs : List (HVal × HVal)},
      List.Forall₂ (fun p q => f p.1 q.1 = true ∧ f p.2 q.2 = true) ps qs →
      dEqPairsF f ps qs = true := by
  intro ps
  induction ps with
  | nil => intro qs h; cases h; rfl
  | cons p ps ih =>
    intro qs h
    cases h with
    | cons hxy htail =>
      rename_i q qs2
      obtain ⟨k1, v1⟩ := p
      obtain ⟨k2, v2⟩ := q
      simp [dEqPairsF, hxy.1, hxy.2, ih htail]

theorem dEqEntriesF_of_forall₂ {f : HVal → HVal → Bool} :
    ∀ {es fs : List (String × HVal)},
      List.Forall₂ (fun p q => p.1 = q.1 ∧ f p.2 q.2 = true) es fs →
      dEqEntriesF f es fs = true := by
  intro es
  induction es with
  | nil => intro fs h; cases h; rfl
  | cons p es ih =>
    intro fs h
    cases h with
    | cons hxy htail =>
      rename_i q fs2
      obtain ⟨k1, v1⟩ := p
      obtain ⟨k2, v2⟩ := q
      have hk : k1 = k2 := hxy.1
      simp [dEqEntriesF, hk, hxy.2, ih htail]

theorem dEqSymsF_of_forall₂ {f : HVal → HVal → Bool} :
    ∀ {es fs : List ((Nat × Option String) × HVal)},
      List.Forall₂ (fun p q => p.1 = q.1 ∧ f p.2 q.2 = true) es fs →
      dEqSymsF f es fs = true := by
  intro es
  induction es with
  | nil => intro fs h; cases h; rfl
  | cons p es ih =>
    intro fs h
    cases h with
    | cons hxy htail =>
      rename_i q fs2
      obtain ⟨k1, v1⟩ := p
      obtain ⟨k2, v2⟩ := q
      have hk : k1 = k2 := hxy.1
      simp [dEqSymsF, hk, hxy.2, ih htail]

/-- Completed hash entries make clone-related values deep-equal at every
fuel (in the run's final heap): the heart of structural equality of
`deepClone`. -/
theorem relp_dEq {st : CState} (hok : HashOK st []) :
    ∀ (k : Nat) (v w : HVal), RELp st.hash v w →
      dEqV k st.heap v w = true := by
  intro k
  induction k with
  | zero => intro v w _; rfl
  | succ k ih =>
    intro v w hrel
    cases v with
    | prim p =>
      cases p <;> simp only [RELp] at hrel
      case pSym i d =>
        obtain ⟨i2, rfl⟩ := hrel
        simp [dEqV, dEqStep]
      all_goals (rw [hrel]; exact dEqV_prim_refl _ _ _)
    | ref a =>
      obtain ⟨b, rfl, hf⟩ := hrel
      have hmem := hashFind_mem hf
      obtain ⟨o, o2, hla, hlb, hrelo⟩ := hok (a, b) hmem (by simp)
      simp only [dEqV, dEqStep, hla, hlb]
      cases o <;> cases o2 <;> simp only [ObjRel] at hrelo <;>
        try exact absurd hrelo not_false
      case objO.objO =>
        simp only [dEqObj, Bool.and_eq_true]
        exact ⟨dEqEntriesF_of_forall₂ (hrelo.1.imp fun p q hx => ⟨hx.1, ih _ _ hx.2⟩),
          dEqSymsF_of_forall₂ (hrelo.2.imp fun p q hx => ⟨hx.1, ih _ _ hx.2⟩)⟩
      case arrO.arrO =>
        exact dEqListF_of_forall₂ (hrelo.imp fun p q hx => ih _ _ hx)
      case mapO.mapO =>
        refine dEqPairsF_of_forall₂ (hrelo.imp fun p q hx => ⟨?_, ih _ _ hx.2⟩)
        have hk := hx.1
        cases hp : p.1 with
        | prim pk =>
          rw [hp] at hk
          simp only [RELk] at hk
          rw [hk]
          exact dEqV_prim_refl _ _ _
        | ref ak =>
          rw [hp] at hk
          simp only [RELk] at hk
          exact ih _ _ hk
      case setO.setO =>
        exact dEqListF_of_forall₂ (hrelo.imp fun p q hx => ih _ _ hx)

/-- Heap reachability: the addresses of the containers a value leads to. -/
inductive ReachesH (h : Heap) : HVal → Nat → Prop where
  | here (a : Nat) : ReachesH h (HVal.ref a) a
  | step (a b : Nat) (o : HObj) (v : HVal) :
      h.lookup a = some o → v ∈ o.subvalues → ReachesH h v b →
      ReachesH h (HVal.ref a) b

theorem refsInB_subvalues {D : List Nat} {o : HObj}
    (h : HObj.refsInB D o = true) :
    ∀ v ∈ o.subvalues, HVal.refsInB D v = true := by
  simpa [HObj.refsInB, List.all_eq_true] using h

theorem forall₂_mem_right {α β : Type} {R : α → β → Prop} {xs : List α}
    {ys : List β} (h : List.Forall₂ R xs ys) {y : β} (hy : y ∈ ys) :
    ∃ x ∈ xs, R x y := by
  induction h with
  | nil => simp at hy
  | cons hxy _ ih =>
    rcases List.mem_cons.1 hy with rfl | hy2
    · exact ⟨_, by simp, hxy⟩
    · obtain ⟨x, hx, hr⟩ := ih hy2
      exact ⟨x, List.mem_cons_of_mem _ hx, hr⟩

/-- Every value contained in a clone object is a primitive or a reference
to a registered clone address. -/
theorem objRel_subvalues {hs : List (Nat × Nat)} {o o2 : HObj}
    (hrel : ObjRel hs o o2) :
    ∀ v2 ∈ o2.subvalues,
      (∃ p, v2 = HVal.prim p) ∨
        ∃ a2, v2 = HVal.ref a2 ∧ ∃ a, hashFind hs a = some a2 := by
  have relp_case : ∀ v v2, RELp hs v v2 →
      (∃ p, v2 = HVal.prim p) ∨
        ∃ a2, v2 = HVal.ref a2 ∧ ∃ a, hashFind hs a = some a2 := by
    intro v v2 hr
    cases v with
    | prim p =>
      cases p <;> simp only [RELp] at hr
      case pSym i d =>
        obtain ⟨i2, rfl⟩ := hr
        exact Or.inl ⟨_, rfl⟩
      all_goals (rw [hr]; exact Or.inl ⟨_, rfl⟩)
    | ref a =>
      obtain ⟨b, rfl, hf⟩ := hr
      exact Or.inr ⟨b, rfl, a, hf⟩
  cases o <;> cases o2 <;> simp only [ObjRel] at hrel <;>
    try exact absurd hrel not_false
  case objO.objO ss sys ss2 sys2 =>
    intro v2 hv2
    simp only [HObj.subvalues, List.mem_append, List.mem_map] at hv2
    rcases hv2 with ⟨q, hq, rfl⟩ | ⟨q, hq, rfl⟩
    · obtain ⟨p, _, hr⟩ := forall₂_mem_right hrel.1 hq
      exact relp_case p.2 q.2 hr.2
    · obtain ⟨p, _, hr⟩ := forall₂_mem_right hrel.2 hq
      exact relp_case p.2 q.2 hr.2
  case arrO.arrO xs ys =>
    intro v2 hv2
    obtain ⟨x, _, hr⟩ := forall₂_mem_right hrel hv2
    exact relp_case x v2 hr
  case mapO.mapO ps qs =>
    intro v2 hv2
    simp only [HObj.subvalues, List.mem_append, List.mem_map] at hv2
    rcases hv2 with ⟨q, hq, rfl⟩ | ⟨q, hq, rfl⟩
    · obtain ⟨p, _, hr⟩ := forall₂_mem_right hrel hq
      have hk := hr.1
      cases hp : p.1 with
      | prim pk =>
        rw [hp] at hk
        simp only [RELk] at hk
        rw [hk]
        exact Or.inl ⟨_, rfl⟩
      | ref ak =>
        rw [hp] at hk
        simp only [RELk] at hk
        obtain ⟨b, hb, hf⟩ := hk
        exact Or.inr ⟨b, hb, ak, hf⟩
    · obtain ⟨p, _, hr⟩ := forall₂_mem_right hrel hq
      exact relp_case p.2 q.2 hr.2
  case setO.setO xs ys =>
    intro v2 hv2
    obtain ⟨x, _, hr⟩ := forall₂_mem_right hrel hv2
    exact relp_case x v2 hr

/-- The clone side of a run: a primitive, or a reference registered as
some source's clone. -/
def cloneSide (hs : List (Nat × Nat)) : HVal → Prop
  | HVal.prim _ => True
  | HVal.ref a2 => ∃ a, hashFind hs a = some a2

/-- Everything reachable from the clone is a registered clone address. -/
theorem reach_clone {st : CState} (hok : HashOK st []) :
    ∀ {w : HVal} {b : Nat}, ReachesH st.heap w b → cloneSide st.hash w →
      ∃ a, hashFind st.hash a = some b := by
  intro w b hreach
  induction hreach with
  | here c => intro hw; exact hw
  | step c b2 o v hla hsub _ ih =>
    intro hw
    obtain ⟨src, hf⟩ := hw
    obtain ⟨osrc, o2, hls, hlc, hrelo⟩ := hok (src, c) (hashFind_mem hf) (by simp)
    have ho : o2 = o := by
      rw [hla] at hlc
      injection hlc with he
      exact he.symm
    subst ho
    apply ih
    rcases objRel_subvalues hrelo v hsub with ⟨p, rfl⟩ | ⟨a2, rfl, src2, hf2⟩
    · trivial
    · exact ⟨src2, hf2⟩

/-- Everything reachable from the source value stays in the closed set. -/
theorem reach_src {h0 : Heap} {D : List Nat} (hcl : closedOn h0 D = true)
    {hp : Heap} (hframe : ∀ a ∈ D, hp.lookup a = h0.lookup a) :
    ∀ {v : HVal} {b : Nat}, ReachesH hp v b →
      HVal.refsInB D v = true → b ∈ D := by
  intro v b hreach
  induction hreach with
  | here a => intro hv; exact refsInB_ref.1 hv
  | step a b2 o v2 hla hsub _ ih =>
    intro hv
    have haD : a ∈ D := refsInB_ref.1 hv
    obtain ⟨o0, ho0, hrefs0⟩ := closedOn_spec hcl haD
    have : o = o0 := by
      rw [hframe a haD, ho0] at hla
      injection hla with he
      exact he.symm
    subst this
    exact ih (refsInB_subvalues hrefs0 v2 hsub)

theorem heapWF_spec {h : Heap} {D : List Nat} (hwf : heapWF h D = true) :
    D.Nodup ∧ closedOn h D = true ∧ (∀ a ∈ D, a < h.next) ∧
      (∀ p ∈ h.objs, p.1 < h.next) := by
  simp only [heapWF, Bool.and_eq_true, decide_eq_true_eq, List.all_eq_true] at hwf
  exact ⟨hwf.1.1.1, hwf.1.1.2, fun a ha => hwf.1.2 a ha,
    fun p hp => hwf.2 p hp⟩

theorem stInv_init {h : Heap} {D : List Nat} (hwf : heapWF h D = true)
    (symCtr : Nat) : StInv h D ⟨h, [], symCtr⟩ := by
  obtain ⟨_, _, hdb, hwfo⟩ := heapWF_spec hwf
  exact ⟨fun a _ => rfl, hdb, hwfo,
    fun p hp => absurd hp (List.not_mem_nil p),
    fun p hp => absurd hp (List.not_mem_nil p),
    fun p hp => absurd hp (List.not_mem_nil p),
    fun p hp => absurd hp (List.not_mem_nil p),
    List.nodup_nil, List.nodup_nil⟩

theorem hashOK_init {h : Heap} (symCtr : Nat) :
    HashOK ⟨h, [], symCtr⟩ [] :=
  fun p hp _ => absurd hp (List.not_mem_nil p)

/-- C1: for every well-formed value (references confined to the closed,
duplicate-free address set `D` of the heap), a successful `deepClone` run
returns a value deep-equal to the source at every unfolding depth (symbols
compared by description), returns non-symbol primitives as-is without
touching the heap, reaches only freshly allocated container addresses in
its result (all at or above the old allocation frontier, absent from the
input heap), shares no container with the source at any level, and
mutating any container reachable from the clone leaves every container
reachable from the source untouched. -/
theorem deepClone_structural (h : Heap) (D : List Nat) (symCtr fuel : Nat)
    (v w : HVal) (st' : CState)
    (hwf : heapWF h D = true) (hv : HVal.refsInB D v = true)
    (hrun : deepClone fuel h symCtr v = some (w, st')) :
    (∀ k, dEqV k st'.heap v w = true) ∧
    (∀ p, v = HVal.prim p → HVal.isSymbol v = false → w = v ∧ st'.heap = h) ∧
    (∀ b, ReachesH st'.heap w b → h.next ≤ b ∧ h.lookup b = none) ∧
    (∀ b, ReachesH st'.heap v b → b ∈ D ∧ b < h.next) ∧
    (∀ b, ReachesH st'.heap w b → ¬ ReachesH st'.heap v b) ∧
    (∀ b o2 c, ReachesH st'.heap w b → ReachesH st'.heap v c →
      (writeObj st' b o2).heap.lookup c = st'.heap.lookup c) := by
  obtain ⟨hnd, hcl, hdb, hwfo⟩ := heapWF_spec hwf
  obtain ⟨inv', hok', hrel, ev⟩ := cloneV_sound hcl fuel []
    ⟨h, [], symCtr⟩ v w st' (stInv_init hwf symCtr) (hashOK_init symCtr)
    hv hrun
  have h1 : ∀ k, dEqV k st'.heap v w = true := fun k => relp_dEq hok' k v w hrel
  have h2 : ∀ p, v = HVal.prim p → HVal.isSymbol v = false →
      w = v ∧ st'.heap = h := by
    rintro p rfl hsym
    cases fuel with
    | zero => simp [deepClone, cloneV] at hrun
    | succ n =>
      cases p <;> try simp [HVal.isSymbol] at hsym
      all_goals
        simp only [deepClone, cloneV, cloneStep, Option.some.injEq,
          Prod.mk.injEq] at hrun
      all_goals
        obtain ⟨hw, hst⟩ := hrun
      all_goals
        exact ⟨hw.symm, by rw [← hst]⟩
  have hsrc : ∀ b, ReachesH st'.heap v b → b ∈ D :=
    fun b hr => reach_src hcl inv'.frameD hr hv
  have hws : cloneSide st'.hash w := by
    cases v with
    | prim p =>
      cases p <;> simp only [RELp] at hrel
      case pSym i d =>
        obtain ⟨i2, rfl⟩ := hrel
        trivial
      all_goals (rw [hrel]; trivial)
    | ref a =>
      obtain ⟨b, rfl, hf⟩ := hrel
      exact ⟨a, hf⟩
  have hclone2 : ∀ b, ReachesH st'.heap w b → h.next ≤ b := by
    intro b hr
    obtain ⟨a, hf⟩ := reach_clone hok' hr hws
    rcases ev.hnew (a, b) (hashFind_mem hf) with hin | hge
    · exact absurd hin (List.not_mem_nil _)
    · exact hge
  refine ⟨h1, h2, ?_, ?_, ?_, ?_⟩
  · intro b hr
    exact ⟨hclone2 b hr, lookup_ge_next hwfo (hclone2 b hr)⟩
  · intro b hr
    exact ⟨hsrc b hr, hdb b (hsrc b hr)⟩
  · intro b hrw hrv
    have hb1 := hclone2 b hrw
    have hb2 := hdb b (hsrc b hrv)
    omega
  · intro b o2 c hrw hrv
    have hb1 := hclone2 b hrw
    have hb2 := hdb c (hsrc c hrv)
    exact writeObj_lookup_ne (by omega)

/-- A two-object input heap for the clone witnesses: a plain object at
address 0 holding a number and a reference to the array at address 1. -/
def wHeap : Heap :=
  ⟨[(0, HObj.objO [("x", HVal.prim (Prim.pNum (JNum.finite 1))),
      ("y", HVal.ref 1)] []),
    (1, HObj.arrO [HVal.prim (Prim.pStr "s")])], 2⟩

/-- The state produced by cloning `ref 0` from `wHeap`. -/
def wSt : CState :=
  ((deepClone 3 wHeap 0 (HVal.ref 0)).getD
    (HVal.prim Prim.pNull, ⟨⟨[], 0⟩, [], 0⟩)).2

theorem deepClone_structural_witness :
    heapWF wHeap [0, 1] = true ∧
    HVal.refsInB [0, 1] (HVal.ref 0) = true ∧
    deepClone 3 wHeap 0 (HVal.ref 0) = some (HVal.ref 2, wSt) ∧
    dEqV 9 wSt.heap (HVal.ref 0) (HVal.ref 2) = true ∧
    ¬ ReachesH wSt.heap (HVal.ref 2) 0 := by
  have hrun : deepClone 3 wHeap 0 (HVal.ref 0) = some (HVal.ref 2, wSt) := by
    decide
  have h := deepClone_structural wHeap [0, 1] 0 3 (HVal.ref 0) (HVal.ref 2)
    wSt (by decide) (by decide) hrun
  refine ⟨by decide, by decide, hrun, h.1 9, ?_⟩
  intro hr
  exact h.2.2.2.2.1 0 hr (ReachesH.here 0)

theorem cloneV_succ (n : Nat) (st : CState) (v : HVal) :
    cloneV (n + 1) st v = cloneStep (cloneV n) st v := rfl

/-- C2: for any well-formed heap — cyclic references included — a clone
run with fuel exceeding the size of the closed address set terminates
(returns a result), and for a self-referential object `a = {}; a.self = a`
the result is a fresh object whose `self` property is reference-equal to
the result itself, not to `a`: the registration-before-population of the
clone container resolves the cyclic back-reference to the clone. -/
theorem deepClone_cycle_termination (h : Heap) (D : List Nat) (symCtr : Nat)
    (hwf : heapWF h D = true) :
    (∀ (v : HVal) (fuel : Nat), HVal.refsInB D v = true →
      D.length + 1 ≤ fuel → (deepClone fuel h symCtr v).isSome) ∧
    (∀ (a fuel : Nat) (w : HVal) (st' : CState), a ∈ D →
      h.lookup a = some (HObj.objO [("self", HVal.ref a)] []) →
      deepClone fuel h symCtr (HVal.ref a) = some (w, st') →
      ∃ b, w = HVal.ref b ∧ b ≠ a ∧
        st'.heap.lookup b = some (HObj.objO [("self", HVal.ref b)] [])) := by
  obtain ⟨hnd, hcl, hdb, hwfo⟩ := heapWF_spec hwf
  constructor
  · intro v fuel hv hfuel
    apply cloneV_total hcl hnd fuel _ v (stInv_init hwf symCtr) hv
    have hm : hashMeasure D ([] : List (Nat × Nat)) = D.length := by
      simp only [hashMeasure]
      rw [List.filter_eq_self.mpr]
      intro a _
      simp [hashFind]
    rw [hm]
    exact hfuel
  · intro a fuel w st' haD hlook hrun
    obtain ⟨inv', hok', hrel, ev⟩ := cloneV_sound hcl fuel []
      ⟨h, [], symCtr⟩ _ w st' (stInv_init hwf symCtr) (hashOK_init symCtr)
      (refsInB_ref.2 haD) hrun
    obtain ⟨b, rfl, hf⟩ := hrel
    have hmem := hashFind_mem hf
    obtain ⟨o, o2, hla, hlb, hrelo⟩ := hok' (a, b) hmem (by simp)
    have ho : o = HObj.objO [("self", HVal.ref a)] [] := by
      rw [inv'.frameD a haD, hlook] at hla
      injection hla with he
      exact he.symm
    subst ho
    cases o2 with
    | objO ss2 sys2 =>
      obtain ⟨hss, hsys⟩ := hrelo
      cases hss with
      | cons hq htail =>
        rename_i q ss3
        cases htail
        cases hsys
        obtain ⟨k2, v2⟩ := q
        have hk2 : k2 = "self" := hq.1.symm
        obtain ⟨b2, hb2, hf2⟩ := hq.2
        have hbb : b2 = b := by
          rw [hf] at hf2
          injection hf2 with he
          exact he.symm
        have hbnotD : b ∉ D := inv'.hrngFresh (a, b) hmem
        refine ⟨b, rfl, fun he => hbnotD (he ▸ haD), ?_⟩
        have hb2x : v2 = HVal.ref b2 := hb2
        rw [hlb, hk2, hb2x, hbb]
    | arrO xs => exact absurd hrelo not_false
    | mapO ps => exact absurd hrelo not_false
    | setO xs => exact absurd hrelo not_false

/-- A single self-referential object, `a = {}; a.self = a`. -/
def wHeap2 : Heap := ⟨[(0, HObj.objO [("self", HVal.ref 0)] [])], 1⟩

/-- The state produced by cloning the self-referential object. -/
def wSt2 : CState :=
  ((deepClone 2 wHeap2 0 (HVal.ref 0)).getD
    (HVal.prim Prim.pNull, ⟨⟨[], 0⟩, [], 0⟩)).2

theorem deepClone_cycle_termination_witness :
    heapWF wHeap2 [0] = true ∧
    (deepClone 2 wHeap2 0 (HVal.ref 0)).isSome = true ∧
    deepClone 2 wHeap2 0 (HVal.ref 0) = some (HVal.ref 1, wSt2) ∧
    wSt2.heap.lookup 1 = some (HObj.objO [("self", HVal.ref 1)] []) := by
  have h := deepClone_cycle_termination wHeap2 [0] 0 (by decide)
  have hpart1 := h.1 (HVal.ref 0) 2 (by decide) (by decide)
  exact ⟨by decide, hpart1, by decide, by decide⟩

/-- C7: cloning a Map allocates an empty new Map at the fresh address (not
present in the input heap), registers it in the identity map before
populating, and fills it pair by pair in iteration order: each value is
deep-cloned, each non-primitive key is deep-cloned with cycle tracking,
and each primitive key is reused as-is. -/
theorem deepClone_map (h : Heap) (D : List Nat) (symCtr fuel : Nat) (a : Nat)
    (ps : List (HVal × HVal)) (w : HVal) (st' : CState)
    (hwf : heapWF h D = true) (ha : a ∈ D)
    (hlook : h.lookup a = some (HObj.mapO ps))
    (hrun : deepClone fuel h symCtr (HVal.ref a) = some (w, st')) :
    w = HVal.ref h.next ∧
    h.lookup h.next = none ∧
    hashFind st'.hash a = some h.next ∧
    ∃ qs, st'.heap.lookup h.next = some (HObj.mapO qs) ∧
      List.Forall₂ (fun p q =>
        (p.1.isPrimitive = true → q.1 = p.1) ∧
        RELk st'.hash p.1 q.1 ∧ RELp st'.hash p.2 q.2 ∧
        (∀ k, dEqV k st'.heap p.1 q.1 = true) ∧
        (∀ k, dEqV k st'.heap p.2 q.2 = true)) ps qs := by
  obtain ⟨hnd, hcl, hdb, hwfo⟩ := heapWF_spec hwf
  obtain ⟨inv', hok', hrel, ev⟩ := cloneV_sound hcl fuel []
    ⟨h, [], symCtr⟩ _ w st' (stInv_init hwf symCtr) (hashOK_init symCtr)
    (refsInB_ref.2 ha) hrun
  cases fuel with
  | zero => simp [deepClone, cloneV] at hrun
  | succ n =>
    simp only [deepClone, cloneV_succ, cloneStep, hashFind, hlook] at hrun
    cases hpr : clonePairsF (cloneV n)
        (regAlloc ⟨h, [], symCtr⟩ a (HObj.mapO [])) ps with
    | none =>
      simp only [hpr] at hrun
      exact Option.noConfusion hrun
    | some q =>
      obtain ⟨qs0, st2⟩ := q
      simp only [hpr, Option.some.injEq, Prod.mk.injEq] at hrun
      obtain ⟨hw, hst⟩ := hrun
      subst hw
      subst hst
      obtain ⟨inv1, ev1, hoktr, hfind1⟩ :=
        regAlloc_sound (HObj.mapO []) (stInv_init hwf symCtr) ha
          (by simp [hashFind])
      obtain ⟨o0, ho0, hrefs0⟩ := closedOn_spec hcl ha
      have ho0m : o0 = HObj.mapO ps := by
        rw [hlook] at ho0
        injection ho0 with he
        exact he.symm
      subst ho0m
      obtain ⟨inv2, hok2, hrel2, ev2⟩ :=
        clonePairsF_sound (cloneV_sound hcl n) (a :: []) ps _ qs0 st2 inv1
          (hoktr [] (hashOK_init symCtr)) (refsInB_mapO hrefs0) hpr
      refine ⟨rfl, lookup_ge_next hwfo le_rfl, ev2.fp a h.next hfind1, qs0,
        writeObj_lookup_self, ?_⟩
      refine hrel2.imp fun p q hx => ⟨?_, hx.1, hx.2,
        fun k => ?_, fun k => relp_dEq hok' k p.2 q.2 hx.2⟩
      · intro hprim
        cases hp : p.1 with
        | prim pk =>
          have hk := hx.1
          rw [hp] at hk
          exact hk
        | ref ak =>
          rw [hp] at hprim
          simp [HVal.isPrimitive] at hprim
      · cases hp : p.1 with
        | prim pk =>
          have hk := hx.1
          rw [hp] at hk
          simp only [RELk] at hk
          rw [hk]
          exact dEqV_prim_refl _ _ _
        | ref ak =>
          have hk := hx.1
          rw [hp] at hk
          exact relp_dEq hok' k (HVal.ref ak) q.1 hk

/-- A Map with one primitive key and one object key, plus the Set it
references. -/
def wHeap3 : Heap :=
  ⟨[(0, HObj.mapO [(HVal.prim (Prim.pStr "k"), HVal.prim (Prim.pNum (JNum.finite 1))),
      (HVal.ref 1, HVal.prim (Prim.pBool true))]),
    (1, HObj.setO [])], 2⟩

/-- The state produced by cloning the Map. -/
def wSt3 : CState :=
  ((deepClone 3 wHeap3 0 (HVal.ref 0)).getD
    (HVal.prim Prim.pNull, ⟨⟨[], 0⟩, [], 0⟩)).2

theorem deepClone_map_witness :
    heapWF wHeap3 [0, 1] = true ∧
    deepClone 3 wHeap3 0 (HVal.ref 0) = some (HVal.ref 2, wSt3) ∧
    hashFind wSt3.hash 0 = some 2 ∧ wHeap3.lookup 2 = none := by
  have hrun : deepClone 3 wHeap3 0 (HVal.ref 0) = some (HVal.ref 2, wSt3) := by
    decide
  have h := deepClone_map wHeap3 [0, 1] 0 3 0
    [(HVal.prim (Prim.pStr "k"), HVal.prim (Prim.pNum (JNum.finite 1))),
      (HVal.ref 1, HVal.prim (Prim.pBool true))]
    (HVal.ref 2) wSt3 (by decide) (by decide) (by decide) hrun
  exact ⟨by decide, hrun, h.2.2.1, h.2.1⟩

/-- C10: every visit of a symbol value produces a fresh symbol — same
description, new identity (beyond every identity in use) — and symbols are
never registered in the identity map, so a symbol reachable via two paths
becomes two distinct symbols in the clone; symbol-named property keys, by
contrast, are reused identically. -/
theorem deepClone_symbol_values (h : Heap) (a i : Nat) (d : Option String)
    (j : Nat) (e : Option String) (symCtr fuel : Nat)
    (hlook : h.lookup a = some (HObj.objO
      [("x", HVal.prim (Prim.pSym i d)), ("y", HVal.prim (Prim.pSym i d))]
      [((j, e), HVal.prim (Prim.pStr "v"))]))
    (hi : i < symCtr) (hfuel : 2 ≤ fuel) :
    ∃ st', deepClone fuel h symCtr (HVal.ref a) = some (HVal.ref h.next, st') ∧
      st'.heap.lookup h.next = some (HObj.objO
        [("x", HVal.prim (Prim.pSym symCtr d)),
          ("y", HVal.prim (Prim.pSym (symCtr + 1) d))]
        [((j, e), HVal.prim (Prim.pStr "v"))]) ∧
      st'.hash = [(a, h.next)] ∧
      st'.symCtr = symCtr + 2 ∧
      symCtr ≠ symCtr + 1 ∧ symCtr ≠ i ∧ symCtr + 1 ≠ i := by
  obtain ⟨m, rfl⟩ : ∃ m, fuel = m + 1 + 1 := ⟨fuel - 2, by omega⟩
  refine ⟨writeObj
      { heap := ⟨(h.next, HObj.objO [] []) :: h.objs, h.next + 1⟩,
        hash := [(a, h.next)], symCtr := symCtr + 1 + 1 } h.next
      (HObj.objO [("x", HVal.prim (Prim.pSym symCtr d)),
        ("y", HVal.prim (Prim.pSym (symCtr + 1) d))]
        [((j, e), HVal.prim (Prim.pStr "v"))]),
    ?_, writeObj_lookup_self, rfl, rfl, by omega, by omega, by omega⟩
  simp only [deepClone, cloneV_succ, cloneStep, hashFind, hlook,
    cloneEntriesF, cloneSymsF, regAlloc, writeObj]

/-- One object holding the same symbol under two properties and a
symbol-keyed property. -/
def wHeap4 : Heap :=
  ⟨[(0, HObj.objO
      [("x", HVal.prim (Prim.pSym 0 (some "t"))),
        ("y", HVal.prim (Prim.pSym 0 (some "t")))]
      [((5, some "s"), HVal.prim (Prim.pStr "v"))])], 1⟩

/-- The state produced by cloning it. -/
def wSt4 : CState :=
  ((deepClone 2 wHeap4 1 (HVal.ref 0)).getD
    (HVal.prim Prim.pNull, ⟨⟨[], 0⟩, [], 0⟩)).2

theorem deepClone_symbol_values_witness :
    deepClone 2 wHeap4 1 (HVal.ref 0) = some (HVal.ref 1, wSt4) ∧
    wSt4.heap.lookup 1 = some (HObj.objO
      [("x", HVal.prim (Prim.pSym 1 (some "t"))),
        ("y", HVal.prim (Prim.pSym 2 (some "t")))]
      [((5, some "s"), HVal.prim (Prim.pStr "v"))]) ∧
    wSt4.hash = [(0, 1)] := by
  obtain ⟨st', h1, h2, h3, h4, h5, h6, h7⟩ :=
    deepClone_symbol_values wHeap4 0 0 (some "t") 5 (some "s") 1 2
      (by decide) (by decide) (by decide)
  have hknown : deepClone 2 wHeap4 1 (HVal.ref 0) = some (HVal.ref 1, wSt4) := by
    decide
  have hw : st' = wSt4 := by
    rw [h1] at hknown
    simp only [Option.some.injEq, Prod.mk.injEq] at hknown
    exact hknown.2
  subst hw
  exact ⟨h1, h2, h3⟩
